import Mathlib

/-!
# RFC 5011 trust anchor loading (`validator/autotrust.c`)

A shallow embedding of the record-store part of `validator/autotrust.c`:
the comment parser (`position_in_string`, `parse_comments`), the line filter
(`str_contains_data`), the per-line loader (`load_trustanchor` and the
functions it calls) and the file loader (`autr_read_file`).

Conventions of the embedding.

* A C string is the `List Char` of its characters before the terminating NUL.
* `int` positions and lengths are `Int`; every string handled here sits in the
  10240-byte line buffer of `autr_read_file`, far from the `int` range.
* Casts to `uint8_t` and `uint32_t` are written as `% 256` and `% 4294967296`.
* `malloc`, `calloc`, `strdup` and `memdup` are taken to succeed.
* A pointer to a trust point is its index in the store; a function whose C body
  would dereference a null pointer returns `none`.
* The trust point locks are not part of the model.
-/

namespace Autotrust

/-! ## Key states -/

/-- Modelled from the spec: the enumeration `autr_state_t` is declared in
`validator/autotrust.h`; the spec gives the codes 0=Start, 1=AddPending,
2=Valid, 3=Missing, 4=Revoked, 5=Removed. -/
abbrev AUTR_STATE_START : Int := 0

/-- Modelled from the spec: code 1, AddPending (see `AUTR_STATE_START`). -/
abbrev AUTR_STATE_ADDPEND : Int := 1

/-- Modelled from the spec: code 2, Valid (see `AUTR_STATE_START`). -/
abbrev AUTR_STATE_VALID : Int := 2

/-- Modelled from the spec: code 3, Missing (see `AUTR_STATE_START`). -/
abbrev AUTR_STATE_MISSING : Int := 3

/-- Modelled from the spec: code 4, Revoked (see `AUTR_STATE_START`). -/
abbrev AUTR_STATE_REVOKED : Int := 4

/-- Modelled from the spec: code 5, Removed (see `AUTR_STATE_START`). -/
abbrev AUTR_STATE_REMOVED : Int := 5

/-! ## Resource records and key entries -/

/-- An `ldns_rr` as far as this file looks into it: owner name, class, type,
the 16-bit flags word that `ldns_rr_dnskey_flags` reads (rdata field 0), and
the remaining rdata bytes. -/
structure ldns_rr where
  owner : List Char
  rr_class : Nat
  rr_type : Nat
  flags : Nat
  rdata : List Nat
deriving DecidableEq, Repr

/-- The record type code of DS (RFC 4034), `LDNS_RR_TYPE_DS` in ldns. -/
abbrev LDNS_RR_TYPE_DS : Nat := 43

/-- The record type code of DNSKEY (RFC 4034), `LDNS_RR_TYPE_DNSKEY` in ldns. -/
abbrev LDNS_RR_TYPE_DNSKEY : Nat := 48

/-- The SEP bit of the DNSKEY flags word (RFC 4034), `DNSKEY_BIT_SEP`. -/
abbrev DNSKEY_BIT_SEP : Nat := 1

/-- The `struct autr_ta` key entry: the record, its state code, the pending
count (`uint8_t`) and the time of the last change (`uint32_t`). The `next`
link is the tail of the list the entry sits in. -/
structure autr_ta where
  rr : ldns_rr
  s : Int
  pending_count : Nat
  last_change : Nat
deriving DecidableEq, Repr

/-! ## `position_in_string` (lines 82-110) -/

/-- The inner `while (*sub != 0 && *walk == *sub)` loop of
`position_in_string`: returns what is left of `sub` and the counter `j`. -/
def match_walk : List Char → List Char → Nat → List Char × Nat
  | _, [], j => ([], j)
  | [], c :: cs, j => (c :: cs, j)
  | w :: ws, c :: cs, j => if w = c then match_walk ws cs (j + 1) else (c :: cs, j)

/-- The outer `while (*str != 0)` loop of `position_in_string`, carrying `pos`
and `i`. -/
def position_loop (sub : List Char) : List Char → Int → Int → Int
  | [], pos, _ => pos
  | c :: cs, pos, i =>
    let r := match_walk (c :: cs) sub 0
    let pos1 := if r.1 = [] ∧ 0 < r.2 then i else pos
    position_loop sub cs pos1 (i + 1)

/-- Calling `position_in_string(str, sub)`. -/
def position_in_string (str sub : List Char) : Int :=
  let pos := position_loop sub str (-1) 0
  if pos < 0 then pos else pos + (sub.length : Int)

/-! ## `atoi` -/

/-- The characters `isspace` accepts in the C locale. -/
def c_isspace (c : Char) : Bool :=
  c = ' ' ∨ c = '\t' ∨ c = '\n' ∨ c = '\x0b' ∨ c = '\x0c' ∨ c = '\r'

/-- The digit loop of `atoi`: accumulates the leading decimal digits. -/
def atoi_digits : List Char → Nat → Nat
  | [], acc => acc
  | c :: cs, acc => if c.isDigit then atoi_digits cs (acc * 10 + (c.toNat - 48)) else acc

/-- The C library `atoi`: skips white space, reads an optional sign and the
leading decimal digits. C defines the result only when it fits an `int`; the
value given here is the mathematical one. -/
def atoi (str : List Char) : Int :=
  match str.dropWhile c_isspace with
  | '-' :: cs => - (atoi_digits cs 0 : Int)
  | '+' :: cs => (atoi_digits cs 0 : Int)
  | cs => (atoi_digits cs 0 : Int)

/-! ## `parse_comments` (lines 118-225) -/

/-- Lines 128-142 of `parse_comments`: the text after the first `;` of the
line, empty when the line has none. -/
def copy_comments : List Char → List Char
  | [] => []
  | c :: cs => if c = ';' then cs else copy_comments cs

/-- Calling `parse_comments(str, ta)`, with `now` the value `time(NULL)` gives.
Returns the C return value (`false` for 0) and the key entry as the call
leaves it. -/
def parse_comments (now : Nat) (str : List Char) (ta : autr_ta) : Bool × autr_ta :=
  let comments := copy_comments str
  /- read state -/
  let pos := position_in_string comments "state=".toList
  if pos ≥ (comments.length : Int) then (false, ta) else
  let ta1 : autr_ta :=
    if pos ≤ 0 then { ta with s := AUTR_STATE_VALID }
    else
      let s : Int := ((comments.getD pos.toNat '\x00').toNat : Int) - ('0'.toNat : Int)
      if s = AUTR_STATE_START ∨ s = AUTR_STATE_ADDPEND ∨ s = AUTR_STATE_VALID
          ∨ s = AUTR_STATE_MISSING ∨ s = AUTR_STATE_REVOKED ∨ s = AUTR_STATE_REMOVED
      then { ta with s := s }
      else { ta with s := AUTR_STATE_START }
  /- read pending count -/
  let pos := position_in_string comments "count=".toList
  if pos ≥ (comments.length : Int) then (false, ta1) else
  let comments2 := if pos ≤ 0 then comments else comments.drop pos.toNat
  let ta2 : autr_ta :=
    if pos ≤ 0 then { ta1 with pending_count := 0 }
    else { ta1 with pending_count := (atoi comments2 % 256).toNat }
  /- read last change -/
  let pos := position_in_string comments2 "lastchange=".toList
  if pos ≥ (comments2.length : Int) then (false, ta2) else
  let comments3 := if pos ≥ 0 then comments2.drop pos.toNat else comments2
  let timestamp : Int := if pos ≥ 0 then atoi comments3 else 0
  if pos < 0 ∨ timestamp = 0
  then (true, { ta2 with last_change := now % 4294967296 })
  else (true, { ta2 with last_change := (timestamp % 4294967296).toNat })

/-! ## `str_contains_data` (lines 228-239) -/

/-- Calling `str_contains_data(str, comment)`; `true` for the C value 1. -/
def str_contains_data : List Char → Char → Bool
  | [], _ => false
  | c :: cs, comment =>
    if c = comment ∨ c = '\n' then false
    else if c ≠ ' ' ∧ c ≠ '\t' then true
    else str_contains_data cs comment

/-! ## Trust points and the store -/

/-- The `struct autr_point_data` of a trust point, with the fields this file
reads or writes. `valid` and `missing` are counters of a width fixed in
`validator/autotrust.h`. -/
structure autr_point_data where
  file : Option (List Char)
  keys : List autr_ta
  last_queried : Nat
  next_probe_time : Nat
  query_failed : Nat
  valid : Nat
  missing : Nat
deriving DecidableEq, Repr

/-- The `struct trust_anchor` of a zone: name and class, the autotrust data
(`none` for a null `autr`, a trust point configured without autotrust) and the
two assembled verification sets (`none` for a null pointer). The label count
`namelabs` is a function of `name` and is left out. -/
structure trust_anchor where
  name : List Char
  namelen : Nat
  dclass : Nat
  autr : Option autr_point_data
  ds_rrset : Option (List ldns_rr)
  dnskey_rrset : Option (List ldns_rr)
deriving DecidableEq, Repr

/-- The `struct val_anchors` store: the trust points in its `tree`, in the
order they were inserted. A trust point pointer is an index into `tree`. -/
structure val_anchors where
  tree : List trust_anchor
deriving DecidableEq, Repr

/-- Reads `tp->autr` through a trust point pointer; `none` when the pointer or
`tp->autr` is null. -/
def deref_autr (anchors : val_anchors) (tp : Nat) : Option autr_point_data :=
  match anchors.tree[tp]? with
  | none => none
  | some t => t.autr

/-- Writes `*tp->autr` through a trust point pointer. -/
def store_autr (anchors : val_anchors) (tp : Nat) (d : autr_point_data) : val_anchors :=
  match anchors.tree[tp]? with
  | none => anchors
  | some t => { anchors with tree := anchors.tree.set tp { t with autr := some d } }

/-- Modelled from the spec: `anchor_find` is defined in `validator/val_anchor.c`;
the spec has the store hold its trust points "in a lookup structure keyed by
(zone name, class)". Returns the pointer to the trust point with that key. -/
def anchor_find_from : List trust_anchor → List Char → Nat → Option Nat
  | [], _, _ => none
  | t :: rest, name, dclass =>
    if t.name = name ∧ t.dclass = dclass then some 0
    else (anchor_find_from rest name dclass).map (fun i => i + 1)

/-- Modelled from the spec: see `anchor_find_from`. -/
def anchor_find (anchors : val_anchors) (name : List Char) (dclass : Nat) : Option Nat :=
  anchor_find_from anchors.tree name dclass

/-! ## DNSKEY flags (lines 242-256) -/

/-- Calling `dnskey_flags(rr)`. -/
def dnskey_flags (rr : ldns_rr) : Nat :=
  if rr.rr_type ≠ LDNS_RR_TYPE_DNSKEY then 0 else rr.flags % 65536

/-- Calling `rr_is_dnskey_sep(rr)`: the C value `dnskey_flags(rr)&DNSKEY_BIT_SEP`
is non-zero. -/
def rr_is_dnskey_sep (rr : ldns_rr) : Bool :=
  (dnskey_flags rr) &&& DNSKEY_BIT_SEP ≠ 0

/-! ## Creating key entries and trust points (lines 259-370) -/

/-- Calling `autr_ta_create(rr)`: a zeroed key entry holding `rr`. -/
def autr_ta_create (rr : ldns_rr) : autr_ta :=
  { rr := rr, s := 0, pending_count := 0, last_change := 0 }

/-- Calling `autr_tp_create(anchors, rr)`: a zeroed trust point for the owner
and class of `rr`, inserted into the store; returns the store and the pointer.
It is called only after `anchor_find` found no trust point with that key. -/
def autr_tp_create (anchors : val_anchors) (rr : ldns_rr) : val_anchors × Nat :=
  let tp : trust_anchor :=
    { name := rr.owner, namelen := rr.owner.length, dclass := rr.rr_class,
      autr := some { file := none, keys := [], last_queried := 0, next_probe_time := 0,
                     query_failed := 0, valid := 0, missing := 0 },
      ds_rrset := none, dnskey_rrset := none }
  ({ anchors with tree := anchors.tree ++ [tp] }, anchors.tree.length)

/-- Calling `find_add_tp(anchors, rr)`: the store and the trust point pointer,
`none` for the null pointer. -/
def find_add_tp (anchors : val_anchors) (rr : ldns_rr) : val_anchors × Option Nat :=
  match anchor_find anchors rr.owner rr.rr_class with
  | some tp =>
    match deref_autr anchors tp with
    | none => (anchors, none)
    | some _ => (anchors, some tp)
  | none =>
    let r := autr_tp_create anchors rr
    (r.1, some r.2)

/-- Calling `add_trustanchor_frm_rr(anchors, rr, &tp)`: the new key entry is
the head of the keys of the trust point returned. The result is `none` when
`find_add_tp` gives the null pointer, which the C code dereferences. -/
def add_trustanchor_frm_rr (anchors : val_anchors) (rr : ldns_rr) : Option (val_anchors × Nat) :=
  let ta := autr_ta_create rr
  match find_add_tp anchors rr with
  | (_, none) => none
  | (a, some tp) =>
    match deref_autr a tp with
    | none => none
    | some d => some (store_autr a tp { d with keys := ta :: d.keys }, tp)

/-! ## Loading one line (lines 379-436) -/

/-- Calling `add_trustanchor_frm_str(anchors, str, &tp)`, with the record
parser `ldns_rr_new_frm_str` as an oracle (`none` for a status other than
`LDNS_STATUS_OK`). The inner `none` is the null return. -/
def add_trustanchor_frm_str (ldns_rr_new_frm_str : List Char → Option ldns_rr)
    (anchors : val_anchors) (str : List Char) : Option (val_anchors × Option Nat) :=
  if !str_contains_data str ';' then some (anchors, none)
  else
    match ldns_rr_new_frm_str str with
    | none => some (anchors, none)
    | some rr =>
      match add_trustanchor_frm_rr anchors rr with
      | none => none
      | some (a, tp) => some (a, some tp)

/-- Calling `load_trustanchor(anchors, str, fname)`: the store afterwards and
the trust point read (`none` for the null return). `W` is the bit width of the
`valid` and `missing` counters, `now` the value of `time(NULL)`. -/
def load_trustanchor (W : Nat) (ldns_rr_new_frm_str : List Char → Option ldns_rr)
    (now : Nat) (anchors : val_anchors) (str : List Char) (fname : List Char) :
    Option (val_anchors × Option Nat) :=
  match add_trustanchor_frm_str ldns_rr_new_frm_str anchors str with
  | none => none
  | some (a, none) => some (a, none)
  | some (a, some tp) =>
    match deref_autr a tp with
    | none => none
    | some d =>
      match d.keys with
      | [] => none
      | ta :: rest =>
        let r := parse_comments now str ta
        let d1 : autr_point_data := { d with keys := r.2 :: rest }
        if !r.1 then some (store_autr a tp d1, none)
        else
          let d2 : autr_point_data :=
            if rr_is_dnskey_sep r.2.rr then
              if r.2.s = AUTR_STATE_VALID then { d1 with valid := (d1.valid + 1) % 2 ^ W }
              else if r.2.s = AUTR_STATE_MISSING then { d1 with missing := (d1.missing + 1) % 2 ^ W }
              else d1
            else d1
          let d3 : autr_point_data :=
            match d2.file with
            | none => { d2 with file := some fname }
            | some _ => d2
          some (store_autr a tp d3, some tp)

/-! ## Assembling (lines 444-488) -/

/-- The `for` loop of `autr_assemble`: pushes each key's record onto the DS
list or the DNSKEY list. -/
def assemble_lists : List autr_ta → List ldns_rr × List ldns_rr → List ldns_rr × List ldns_rr
  | [], acc => acc
  | ta :: rest, acc =>
    if ta.rr.rr_type = LDNS_RR_TYPE_DS then assemble_lists rest (acc.1 ++ [ta.rr], acc.2)
    else assemble_lists rest (acc.1, acc.2 ++ [ta.rr])

/-- Calling `autr_assemble(tp)`: the return value and the trust point
afterwards; `none` when `tp->autr` is null. The two lists are built and freed,
and both verification sets are set to null. -/
def autr_assemble (tp : trust_anchor) : Option (Int × trust_anchor) :=
  match tp.autr with
  | none => none
  | some d =>
    let _lists := assemble_lists d.keys ([], [])
    some (1, { tp with ds_rrset := none, dnskey_rrset := none })

/-! ## Reading a file (lines 490-538) -/

/-- The local variables of `autr_read_file` during its `while` loop, with the
store, and the line numbers of the "failed to load trust anchor" diagnostics. -/
structure read_state where
  anchors : val_anchors
  tp : Option Nat
  line_nr : Nat
  failed : List Nat
deriving DecidableEq, Repr

/-- The `while (fgets(...))` loop of `autr_read_file` over the lines that
`fgets` returns. `time n` is the value of `time(NULL)` while line `n` is
processed. The flag is `true` when the loop was left by the `return 0` of the
mismatch check; the result is `none` when a null pointer is dereferenced. -/
def read_loop (W : Nat) (ldns_rr_new_frm_str : List Char → Option ldns_rr) (time : Nat → Nat)
    (nm : List Char) : List (List Char) → read_state → Option (Bool × read_state)
  | [], st => some (false, st)
  | line :: rest, st =>
    let st1 : read_state := { st with line_nr := st.line_nr + 1 }
    if !str_contains_data line ';' then
      read_loop W ldns_rr_new_frm_str time nm rest st1
    else
      match load_trustanchor W ldns_rr_new_frm_str (time st1.line_nr) st1.anchors line nm with
      | none => none
      | some (a, none) =>
        read_loop W ldns_rr_new_frm_str time nm rest
          { st1 with anchors := a, failed := st1.failed ++ [st1.line_nr] }
      | some (a, some tp2) =>
        if st1.tp.isSome ∧ st1.tp ≠ some tp2 then some (true, { st1 with anchors := a })
        else read_loop W ldns_rr_new_frm_str time nm rest { st1 with anchors := a, tp := some tp2 }

/-- Calling `autr_read_file(anchors, nm)`. `fd` is what `fopen` gives: `none`
when the file cannot be opened, else the lines `fgets` returns in turn.
Returns the C return value, the store afterwards and the line numbers logged
as failed. -/
def autr_read_file (W : Nat) (ldns_rr_new_frm_str : List Char → Option ldns_rr) (time : Nat → Nat)
    (anchors : val_anchors) (nm : List Char) (fd : Option (List (List Char))) :
    Option (Int × val_anchors × List Nat) :=
  match fd with
  | none => some (0, anchors, [])
  | some lines =>
    match read_loop W ldns_rr_new_frm_str time nm lines
        { anchors := anchors, tp := none, line_nr := 0, failed := [] } with
    | none => none
    | some (true, st) => some (0, st.anchors, st.failed)
    | some (false, st) =>
      match st.tp with
      | none => some (0, st.anchors, st.failed)
      | some tp =>
        match st.anchors.tree[tp]? with
        | none => none
        | some t =>
          match autr_assemble t with
          | none => none
          | some (_, t1) => some (1, { st.anchors with tree := st.anchors.tree.set tp t1 }, st.failed)

/-! ## The probe schedule order (lines 70-79) -/

/-- Calling `probetree_cmp(x, y)` on two trust points; `none` when `a->autr`
or `b->autr` is null. -/
def probetree_cmp (a b : trust_anchor) : Option Int :=
  match a.autr, b.autr with
  | some da, some db =>
    if da.next_probe_time < db.next_probe_time then some (-1)
    else if da.next_probe_time > db.next_probe_time then some 1
    else some 0
  | _, _ => none

/-! ## Verification and the probe pipeline (lines 555-627) -/

/-- Modelled from the spec: `enum sec_status` is declared in
`util/data/packed_rrset.h`; the spec has the crypto oracle answer
`Secure | Insecure`. -/
inductive sec_status where
  | sec_status_insecure
  | sec_status_secure
deriving DecidableEq, Repr

/-- The two crypto checks that `verify_dnskey` can consult:
`val_verify_DNSKEY_with_DS` and `val_verify_rrset`. -/
inductive crypto_check where
  | with_DS
  | with_DNSKEY
deriving DecidableEq, Repr

/-- Lines 569-579 of `verify_dnskey`: the check against the DNSKEY set, after
the checks in `consulted`. -/
def verify_dnskey_keys (val_verify_rrset : List ldns_rr → List ldns_rr → sec_status)
    (tp : trust_anchor) (rrset : List ldns_rr) (consulted : List crypto_check) :
    Int × List crypto_check :=
  match tp.dnskey_rrset with
  | some keys =>
    if val_verify_rrset rrset keys = sec_status.sec_status_secure
    then (1, consulted ++ [crypto_check.with_DNSKEY])
    else (0, consulted ++ [crypto_check.with_DNSKEY])
  | none => (0, consulted)

/-- Calling `verify_dnskey(env, ve, tp, rrset)`, with the two crypto checks as
oracles (they hold `env` and `ve`). Returns the C return value and the checks
consulted, in order. -/
def verify_dnskey (val_verify_DNSKEY_with_DS : List ldns_rr → List ldns_rr → sec_status)
    (val_verify_rrset : List ldns_rr → List ldns_rr → sec_status)
    (tp : trust_anchor) (rrset : List ldns_rr) : Int × List crypto_check :=
  match tp.ds_rrset with
  | some ds =>
    if val_verify_DNSKEY_with_DS rrset ds = sec_status.sec_status_secure
    then (1, [crypto_check.with_DS])
    else verify_dnskey_keys val_verify_rrset tp rrset [crypto_check.with_DS]
  | none => verify_dnskey_keys val_verify_rrset tp rrset []

/-- Calling `autr_process_prime(env, ve, tp, dnskey_rrset)`: the return value
and the trust point afterwards; `none` when `tp->autr` is null (the
`log_assert`). `now` is `*env->now`, `dnskey_rrset` is `none` for a null
pointer, and `WQ` is the bit width of the `query_failed` counter. -/
def autr_process_prime (WQ : Nat)
    (val_verify_DNSKEY_with_DS : List ldns_rr → List ldns_rr → sec_status)
    (val_verify_rrset : List ldns_rr → List ldns_rr → sec_status)
    (now : Nat) (tp : trust_anchor) (dnskey_rrset : Option (List ldns_rr)) :
    Option (Int × trust_anchor) :=
  match tp.autr with
  | none => none
  | some d =>
    let d1 : autr_point_data := { d with last_queried := now }
    let tp1 : trust_anchor := { tp with autr := some d1 }
    match dnskey_rrset with
    | none =>
      some (1, { tp1 with autr := some { d1 with query_failed := (d1.query_failed + 1) % 2 ^ WQ } })
    | some rrset =>
      if (verify_dnskey val_verify_DNSKEY_with_DS val_verify_rrset tp1 rrset).1 = 0 then
        some (1, { tp1 with autr := some { d1 with query_failed := (d1.query_failed + 1) % 2 ^ WQ } })
      else
        let tp2 : trust_anchor := { tp1 with autr := some { d1 with query_failed := 0 } }
        match autr_assemble tp2 with
        | none => none
        | some (_, tp3) => some (1, tp3)

/-! ## Definitions used in the statements and proofs -/

/-- The value a string of decimal digits denotes. -/
def decimal_value (ds : List Char) : Nat :=
  ds.foldl (fun acc c => acc * 10 + (c.toNat - 48)) 0

/-- The state that lines 152-178 of `parse_comments` store for the comment
text `c`. -/
def state_field (c : List Char) : Int :=
  let pos := position_in_string c "state=".toList
  if pos ≤ 0 then AUTR_STATE_VALID
  else
    let s : Int := ((c.getD pos.toNat '\x00').toNat : Int) - ('0'.toNat : Int)
    if s = AUTR_STATE_START ∨ s = AUTR_STATE_ADDPEND ∨ s = AUTR_STATE_VALID
        ∨ s = AUTR_STATE_MISSING ∨ s = AUTR_STATE_REVOKED ∨ s = AUTR_STATE_REMOVED
    then s else AUTR_STATE_START

/-- The text `comments` points at after lines 187-193 of `parse_comments`. -/
def count_rest (c : List Char) : List Char :=
  let pos := position_in_string c "count=".toList
  if pos ≤ 0 then c else c.drop pos.toNat

/-- The pending count that lines 187-193 of `parse_comments` store. -/
def count_field (c : List Char) : Nat :=
  if position_in_string c "count=".toList ≤ 0 then 0 else (atoi (count_rest c) % 256).toNat

/-- The last change that lines 203-221 of `parse_comments` store, `c2` being
the text after the count. -/
def lastchange_field (now : Nat) (c2 : List Char) : Nat :=
  let pos := position_in_string c2 "lastchange=".toList
  let timestamp : Int := if pos ≥ 0 then atoi (c2.drop pos.toNat) else 0
  if pos < 0 ∨ timestamp = 0 then now % 4294967296 else (timestamp % 4294967296).toNat

/-- The text holds no occurrence of the pattern that starts in it: the loop
of `position_in_string` runs over it without changing `pos`. -/
def quiet (sub s : List Char) : Prop := ∀ pos i : Int, position_loop sub s pos i = pos

/-- Lines 420-425 of `load_trustanchor`: the counters of the trust point
after key entry `ta` has been read. -/
def count_key (W : Nat) (ta : autr_ta) (d : autr_point_data) : autr_point_data :=
  if rr_is_dnskey_sep ta.rr then
    if ta.s = AUTR_STATE_VALID then { d with valid := (d.valid + 1) % 2 ^ W }
    else if ta.s = AUTR_STATE_MISSING then { d with missing := (d.missing + 1) % 2 ^ W }
    else d
  else d

/-- Lines 426-433 of `load_trustanchor`: the file name is stored when the
trust point has none. -/
def set_file (fname : List Char) (d : autr_point_data) : autr_point_data :=
  match d.file with
  | none => { d with file := some fname }
  | some _ => d

/-- The trust point that `autr_tp_create` makes for the record `rr`, as
`load_trustanchor` leaves it after storing the key entry `ta` of that record
in it. -/
def loaded_point (W : Nat) (fname : List Char) (rr : ldns_rr) (ta : autr_ta) : trust_anchor :=
  { name := rr.owner, namelen := rr.owner.length, dclass := rr.rr_class,
    autr := some { file := some fname, keys := [ta],
                   last_queried := 0, next_probe_time := 0, query_failed := 0,
                   valid := if rr_is_dnskey_sep ta.rr = true ∧ ta.s = AUTR_STATE_VALID
                            then 1 % 2 ^ W else 0,
                   missing := if rr_is_dnskey_sep ta.rr = true ∧ ta.s = AUTR_STATE_MISSING
                              then 1 % 2 ^ W else 0 },
    ds_rrset := none, dnskey_rrset := none }

/-- The cached counts of a trust point agree with its keys: `valid` is the
number of key entries that are DNSKEYs with the SEP flag in state Valid and
`missing` the number of those in state Missing, as counters of `W` bits hold
them. -/
def counted (W : Nat) (d : autr_point_data) : Prop :=
  d.valid = d.keys.countP
      (fun ta => rr_is_dnskey_sep ta.rr && decide (ta.s = AUTR_STATE_VALID)) % 2 ^ W
    ∧ d.missing = d.keys.countP
      (fun ta => rr_is_dnskey_sep ta.rr && decide (ta.s = AUTR_STATE_MISSING)) % 2 ^ W

/-- The store from index `n0` on holds trust points with counts that agree
with their keys; every trust point of the store has autotrust data. -/
def store_counted (W n0 : Nat) (a : val_anchors) : Prop :=
  n0 ≤ a.tree.length ∧ (∀ t ∈ a.tree, t.autr ≠ none)
    ∧ ∀ i t d, n0 ≤ i → a.tree[i]? = some t → t.autr = some d → counted W d

/-- What `load_trustanchor` returns for each line of a file in turn, every
line loaded into the store as the lines before it left it (line `n + 1` at
clock value `time (n + 1)`); `none` when a null pointer is dereferenced. -/
def load_results (W : Nat) (parse : List Char → Option ldns_rr) (time : Nat → Nat)
    (nm : List Char) : List (List Char) → val_anchors → Nat → Option (List (Option Nat))
  | [], _, _ => some []
  | l :: ls, a, n =>
    match load_trustanchor W parse (time (n + 1)) a l nm with
    | none => none
    | some (a2, r) => (load_results W parse time nm ls a2 (n + 1)).map (fun rs => r :: rs)

/-- Every trust point of the store has autotrust data. -/
def all_autr (a : val_anchors) : Prop := ∀ t ∈ a.tree, t.autr ≠ none

/-- The trust points among the results are all the same one. -/
def same_point (xs : List (Option Nat)) : Prop :=
  ∀ t1 t2, some t1 ∈ xs → some t2 ∈ xs → t1 = t2

/-! ## Sample inputs -/

/-- A record parser for the samples: it knows three record lines by their
first characters and rejects everything else. -/
def sample_parse (str : List Char) : Option ldns_rr :=
  if "a. DNSKEY 257".toList <+: str then
    some { owner := "a.".toList, rr_class := 1, rr_type := 48, flags := 257, rdata := [3, 5, 1] }
  else if "b. DNSKEY 257".toList <+: str then
    some { owner := "b.".toList, rr_class := 1, rr_type := 48, flags := 257, rdata := [3, 5, 2] }
  else if "a. DS".toList <+: str then
    some { owner := "a.".toList, rr_class := 1, rr_type := 43, flags := 0, rdata := [9] }
  else none

/-- A key entry as `autr_ta_create` makes it, for the samples. -/
def sample_ta : autr_ta := ⟨⟨"example.".toList, 1, 48, 257, []⟩, 0, 0, 0⟩

/-- A sample file: a record of `a.`, a record of `b.`, and a
further record of `a.`. -/
def sample_mismatch_lines : List (List Char) :=
  ["a. DNSKEY 257 3 5 AQ==\n".toList, "b. DNSKEY 257 3 5 Ag==\n".toList, "a. DS 1 5 1 0A\n".toList]

/-- The trust point of `a.` after the first line of the sample file. -/
def sample_point_a : trust_anchor :=
  { name := "a.".toList, namelen := 2, dclass := 1,
    autr := some { file := some "anchor.file".toList,
                   keys := [⟨⟨"a.".toList, 1, 48, 257, [3, 5, 1]⟩, 2, 0, 1234567890⟩],
                   last_queried := 0, next_probe_time := 0, query_failed := 0,
                   valid := 1, missing := 0 },
    ds_rrset := none, dnskey_rrset := none }

/-- The trust point of `b.` after the second line of the sample file. -/
def sample_point_b : trust_anchor :=
  { name := "b.".toList, namelen := 2, dclass := 1,
    autr := some { file := some "anchor.file".toList,
                   keys := [⟨⟨"b.".toList, 1, 48, 257, [3, 5, 2]⟩, 2, 0, 1234567890⟩],
                   last_queried := 0, next_probe_time := 0, query_failed := 0,
                   valid := 1, missing := 0 },
    ds_rrset := none, dnskey_rrset := none }

/-- A crypto check that finds every key set secure. -/
def sample_secure (_rrset _trusted : List ldns_rr) : sec_status := sec_status.sec_status_secure

/-- A crypto check that finds every key set insecure. -/
def sample_insecure (_rrset _trusted : List ldns_rr) : sec_status :=
  sec_status.sec_status_insecure

/-- A trust point of `a.` with an assembled DS set, a DNSKEY in state Valid
and a DNSKEY in state AddPending. -/
def sample_point_ds : trust_anchor :=
  { name := "a.".toList, namelen := 2, dclass := 1,
    autr := some { file := some "anchor.file".toList,
                   keys := [⟨⟨"a.".toList, 1, 48, 257, [3, 5, 2]⟩, AUTR_STATE_ADDPEND, 1, 1234567000⟩,
                            ⟨⟨"a.".toList, 1, 48, 257, [3, 5, 1]⟩, AUTR_STATE_VALID, 0, 1234560000⟩],
                   last_queried := 0, next_probe_time := 0, query_failed := 2,
                   valid := 1, missing := 0 },
    ds_rrset := some [⟨"a.".toList, 1, 43, 0, [9]⟩], dnskey_rrset := none }

/-! ## Facts about `position_in_string` -/

theorem match_walk_fst (sub : List Char) : ∀ (s : List Char) (j : Nat),
    ((match_walk s sub j).1 = [] ↔ sub <+: s) := by
  induction sub with
  | nil => intro s j; cases s <;> simp [match_walk]
  | cons c cs ih =>
    intro s j
    cases s with
    | nil => simp [match_walk]
    | cons w ws =>
      by_cases h : w = c
      · subst h
        simp [match_walk, ih ws (j + 1), List.cons_prefix_cons]
      · have h2 : ¬ (c :: cs) <+: (w :: ws) := by
          rw [List.cons_prefix_cons]; exact fun hh => h hh.1.symm
        simp [match_walk, h, h2]

theorem match_walk_snd (sub : List Char) : ∀ (s : List Char) (j : Nat),
    (match_walk s sub j).1 = [] → (match_walk s sub j).2 = j + sub.length := by
  induction sub with
  | nil => intro s j _; cases s <;> simp [match_walk]
  | cons c cs ih =>
    intro s j
    cases s with
    | nil => simp [match_walk]
    | cons w ws =>
      by_cases h : w = c
      · subst h
        simp only [match_walk, if_true, List.length_cons]
        intro hh
        rw [ih ws (j + 1) hh]; omega
      · simp [match_walk, h]

/-- The test `*sub == 0 && j > 0` after the inner loop says that the pattern
is non-empty and a prefix of the text at the current position. -/
theorem match_walk_hit (sub s : List Char) :
    ((match_walk s sub 0).1 = [] ∧ 0 < (match_walk s sub 0).2) ↔ (sub ≠ [] ∧ sub <+: s) := by
  constructor
  · rintro ⟨h1, h2⟩
    refine ⟨?_, (match_walk_fst sub s 0).1 h1⟩
    rintro rfl
    rw [match_walk_snd [] s 0 h1] at h2
    simp at h2
  · rintro ⟨h1, h2⟩
    have h3 := (match_walk_fst sub s 0).2 h2
    refine ⟨h3, ?_⟩
    rw [match_walk_snd sub s 0 h3]
    cases sub with
    | nil => exact absurd rfl h1
    | cons c cs => simp

theorem position_loop_cons (sub : List Char) (c : Char) (cs : List Char) (pos i : Int) :
    position_loop sub (c :: cs) pos i
      = position_loop sub cs (if sub ≠ [] ∧ sub <+: (c :: cs) then i else pos) (i + 1) := by
  have h := match_walk_hit sub (c :: cs)
  by_cases hh : sub ≠ [] ∧ sub <+: (c :: cs)
  · have h3 := h.2 hh
    rw [if_pos hh]
    simp only [position_loop, h3, and_self, if_true]
  · have h3 : ¬ ((match_walk (c :: cs) sub 0).1 = [] ∧ 0 < (match_walk (c :: cs) sub 0).2) :=
      fun x => hh (h.1 x)
    rw [if_neg hh]
    simp only [position_loop, h3, if_false]

/-- The pattern occurs nowhere in the text: the loop leaves `pos` as it is. -/
theorem position_loop_none (sub : List Char) : ∀ (s : List Char) (pos i : Int),
    (∀ k, ¬ (sub ≠ [] ∧ sub <+: s.drop k)) → position_loop sub s pos i = pos := by
  intro s
  induction s with
  | nil => intro pos i _; rfl
  | cons c cs ih =>
    intro pos i h
    rw [position_loop_cons]
    have h0 := h 0
    simp only [List.drop_zero] at h0
    rw [if_neg h0]
    exact ih pos (i + 1) (fun k => by simpa using h (k + 1))

/-- The last occurrence of the pattern starts at index `k`: the loop ends with
`pos = i + k`. -/
theorem position_loop_last (sub : List Char) : ∀ (s : List Char) (k : Nat) (pos i : Int),
    sub ≠ [] → sub <+: s.drop k → (∀ k2, k < k2 → ¬ sub <+: s.drop k2) →
    position_loop sub s pos i = i + k := by
  intro s
  induction s with
  | nil =>
    intro k pos i hne hk _
    simp at hk
    exact absurd hk hne
  | cons c cs ih =>
    intro k pos i hne hk hlast
    rw [position_loop_cons]
    cases k with
    | zero =>
      simp only [List.drop_zero] at hk
      rw [if_pos ⟨hne, hk⟩]
      rw [position_loop_none sub cs i (i + 1)]
      · simp
      · intro m hm
        exact hlast (m + 1) (Nat.succ_pos m) (by simpa using hm.2)
    | succ k =>
      rw [ih k _ (i + 1) hne (by simpa using hk)
        (fun k2 hk2 => by simpa using hlast (k2 + 1) (by omega))]
      push_cast; ring

/-- Value of `position_in_string` when the pattern does not occur. -/
theorem position_in_string_absent (s sub : List Char)
    (h : ∀ k, ¬ (sub ≠ [] ∧ sub <+: s.drop k)) : position_in_string s sub = -1 := by
  simp [position_in_string, position_loop_none sub s (-1) 0 h]

/-- Value of `position_in_string` when the last occurrence starts at `k`. -/
theorem position_in_string_last (s sub : List Char) (k : Nat)
    (hne : sub ≠ []) (hk : sub <+: s.drop k) (hlast : ∀ k2, k < k2 → ¬ sub <+: s.drop k2) :
    position_in_string s sub = (k : Int) + (sub.length : Int) := by
  have h := position_loop_last sub s k (-1) 0 hne hk hlast
  simp only [position_in_string, h]
  have : ¬ ((0 : Int) + (k : Int) < 0) := by omega
  simp [this]

/-! ## Facts about the comment parser -/

theorem copy_comments_append (r c : List Char) (h : ';' ∉ r) :
    copy_comments (r ++ ';' :: c) = c := by
  induction r with
  | nil => simp [copy_comments]
  | cons x xs ih =>
    have hx : x ≠ ';' := fun e => h (by simp [e])
    have hxs : ';' ∉ xs := fun e => h (by simp [e])
    simp [copy_comments, hx, ih hxs]

theorem copy_comments_none (r : List Char) (h : ';' ∉ r) : copy_comments r = [] := by
  induction r with
  | nil => rfl
  | cons x xs ih =>
    have hx : x ≠ ';' := fun e => h (by simp [e])
    have hxs : ';' ∉ xs := fun e => h (by simp [e])
    simp [copy_comments, hx, ih hxs]

/-- Characters that differ from the first character of the pattern are
stepped over. -/
theorem position_loop_skip (p : Char) (ps : List Char) : ∀ (seg rest : List Char) (pos i : Int),
    (∀ c ∈ seg, c ≠ p) →
    position_loop (p :: ps) (seg ++ rest) pos i
      = position_loop (p :: ps) rest pos (i + (seg.length : Int)) := by
  intro seg
  induction seg with
  | nil => intro rest pos i _; simp
  | cons x xs ih =>
    intro rest pos i h
    have hx : x ≠ p := h x (by simp)
    have hp : ¬ ((p :: ps) ≠ [] ∧ (p :: ps) <+: (x :: (xs ++ rest))) := by
      rw [List.cons_prefix_cons]; exact fun hh => hx hh.2.1.symm
    rw [List.cons_append, position_loop_cons, if_neg hp,
      ih rest pos (i + 1) (fun c hc => h c (by simp [hc]))]
    congr 1
    simp only [List.length_cons]; push_cast; ring

theorem atoi_digits_append : ∀ (ds rest : List Char) (acc : Nat),
    (∀ c ∈ ds, c.isDigit = true) → (∀ c, rest.head? = some c → c.isDigit = false) →
    atoi_digits (ds ++ rest) acc = ds.foldl (fun a c => a * 10 + (c.toNat - 48)) acc := by
  intro ds
  induction ds with
  | nil =>
    intro rest acc _ hr
    cases rest with
    | nil => rfl
    | cons x xs => simp [atoi_digits, hr x (by simp)]
  | cons d ds ih =>
    intro rest acc hd hr
    have h1 : d.isDigit = true := hd d (by simp)
    simp only [List.cons_append, atoi_digits, h1, if_true, List.foldl_cons]
    exact ih rest _ (fun c hc => hd c (by simp [hc])) hr

theorem atoi_of_digits (ds rest : List Char) (hne : ds ≠ [])
    (hd : ∀ c ∈ ds, c.isDigit = true) (hr : ∀ c, rest.head? = some c → c.isDigit = false) :
    atoi (ds ++ rest) = (decimal_value ds : Int) := by
  cases ds with
  | nil => exact absurd rfl hne
  | cons d ds' =>
    have h1 : d.isDigit = true := hd d (by simp)
    have hsp : c_isspace d = false := by
      cases hs : c_isspace d
      · rfl
      · exfalso
        simp only [c_isspace, decide_eq_true_eq, Bool.decide_or, Bool.or_eq_true] at hs
        rcases hs with h | h | h | h | h | h <;> (subst h; exact absurd h1 (by decide))
    have hm : d ≠ '-' := by rintro rfl; exact absurd h1 (by decide)
    have hp : d ≠ '+' := by rintro rfl; exact absurd h1 (by decide)
    have e := atoi_digits_append (d :: ds') rest 0 hd hr
    unfold atoi
    rw [List.cons_append, List.dropWhile_cons_of_neg (by simp [hsp])]
    split
    · rename_i heq; exact absurd (List.cons.inj heq).1 hm
    · rename_i heq; exact absurd (List.cons.inj heq).1 hp
    · rw [← List.cons_append, e]; rfl

theorem isDigit_ne (c p : Char) (h : c.isDigit = true) (hp : p.isDigit = false) : c ≠ p := by
  rintro rfl; rw [h] at hp; exact absurd hp (by decide)

theorem quiet_nil (sub : List Char) : quiet sub [] := fun _ _ => rfl

theorem quiet_skip (p : Char) (ps seg rest : List Char) (h : ∀ c ∈ seg, c ≠ p)
    (hq : quiet (p :: ps) rest) : quiet (p :: ps) (seg ++ rest) := by
  intro pos i
  rw [position_loop_skip p ps seg rest pos i h]
  exact hq pos _

theorem quiet_all (p : Char) (ps seg : List Char) (h : ∀ c ∈ seg, c ≠ p) :
    quiet (p :: ps) seg := by
  have := quiet_skip p ps seg [] h (quiet_nil _)
  simpa using this

theorem quiet_cons (sub : List Char) (c : Char) (rest : List Char)
    (h : ¬ sub <+: (c :: rest)) (hq : quiet sub rest) : quiet sub (c :: rest) := by
  intro pos i
  rw [position_loop_cons, if_neg (fun hh => h hh.2)]
  exact hq pos _

/-- The pattern sits after a stretch free of its first character and is
followed by text without a further occurrence: the position returned is the
index just after the pattern. -/
theorem position_in_string_at (p : Char) (ps pre post : List Char)
    (hpre : ∀ c ∈ pre, c ≠ p) (hq : quiet (p :: ps) (ps ++ post)) :
    position_in_string (pre ++ ((p :: ps) ++ post)) (p :: ps)
      = (pre.length : Int) + ((p :: ps).length : Int) := by
  unfold position_in_string
  have hh : (p :: ps) ≠ [] ∧ (p :: ps) <+: (p :: (ps ++ post)) := ⟨by simp, by simp⟩
  rw [position_loop_skip p ps pre _ _ _ hpre, List.cons_append, position_loop_cons,
    if_pos hh, hq]
  have : ¬ ((0 : Int) + (pre.length : Int) < 0) := by omega
  simp [this]

theorem position_in_string_quiet (sub s : List Char) (hq : quiet sub s) :
    position_in_string s sub = -1 := by
  unfold position_in_string
  rw [hq]; simp

/-- The three stages of `parse_comments`, one after the other. -/
theorem parse_comments_stages (now : Nat) (str : List Char) (ta : autr_ta) :
    parse_comments now str ta =
      if position_in_string (copy_comments str) "state=".toList ≥ ((copy_comments str).length : Int)
      then (false, ta)
      else if position_in_string (copy_comments str) "count=".toList
          ≥ ((copy_comments str).length : Int)
      then (false, { ta with s := state_field (copy_comments str) })
      else if position_in_string (count_rest (copy_comments str)) "lastchange=".toList
          ≥ ((count_rest (copy_comments str)).length : Int)
      then (false, { ta with s := state_field (copy_comments str),
                             pending_count := count_field (copy_comments str) })
      else (true, { ta with s := state_field (copy_comments str),
                            pending_count := count_field (copy_comments str),
                            last_change := lastchange_field now (count_rest (copy_comments str)) }) := by
  unfold parse_comments
  simp only [state_field, count_rest, count_field, lastchange_field]
  generalize copy_comments str = c
  generalize position_in_string c "state=".toList = p1
  generalize position_in_string c "count=".toList = p2
  by_cases h1 : p1 ≥ (c.length : Int)
  · simp only [h1, if_true]
  · simp only [h1, if_false]
    by_cases h2 : p2 ≥ (c.length : Int)
    · simp only [h2, if_true]
      by_cases h3 : p1 ≤ 0
      · simp only [h3, if_true]
      · simp only [h3, if_false]
        split_ifs <;> rfl
    · simp only [h2, if_false]
      by_cases h4 : p2 ≤ 0
      · simp only [h4, if_true]
        generalize position_in_string c "lastchange=".toList = p3
        by_cases h5 : p3 ≥ (c.length : Int)
        · simp only [h5, if_true]
          by_cases h3 : p1 ≤ 0
          · simp only [h3, if_true]
          · simp only [h3, if_false]
            split_ifs <;> rfl
        · simp only [h5, if_false]
          by_cases h3 : p1 ≤ 0
          · simp only [h3, if_true]
            split_ifs <;> rfl
          · simp only [h3, if_false]
            split_ifs <;> rfl
      · simp only [h4, if_false]
        generalize position_in_string (List.drop p2.toNat c) "lastchange=".toList = p3
        by_cases h5 : p3 ≥ ((List.drop p2.toNat c).length : Int)
        · simp only [h5, if_true]
          by_cases h3 : p1 ≤ 0
          · simp only [h3, if_true]
          · simp only [h3, if_false]
            split_ifs <;> rfl
        · simp only [h5, if_false]
          by_cases h3 : p1 ≤ 0
          · simp only [h3, if_true]
            split_ifs <;> rfl
          · simp only [h3, if_false]
            split_ifs <;> rfl

theorem no_occurrence_of_absent (sub s : List Char) (h : ¬ sub <:+: s) :
    ∀ k, ¬ sub <+: s.drop k :=
  fun k hk => h (hk.isInfix.trans (List.drop_suffix k s).isInfix)

theorem not_prefix_drop_skip (p : Char) (ps : List Char) : ∀ (seg rest : List Char),
    (∀ c ∈ seg, c ≠ p) → (∀ k, ¬ (p :: ps) <+: rest.drop k) →
    ∀ k, ¬ (p :: ps) <+: (seg ++ rest).drop k := by
  intro seg
  induction seg with
  | nil => intro rest _ h; simpa using h
  | cons x xs ih =>
    intro rest hseg h k
    cases k with
    | zero =>
      rw [List.drop_zero, List.cons_append, List.cons_prefix_cons]
      exact fun hh => hseg x (by simp) hh.1.symm
    | succ k =>
      rw [List.cons_append, List.drop_succ_cons]
      exact ih rest (fun c hc => hseg c (by simp [hc])) h k

/-- The position after a token that is followed by no further occurrence of
itself. -/
theorem position_in_string_token (p : Char) (ps pre post : List Char)
    (hlast : ∀ k, ¬ (p :: ps) <+: (ps ++ post).drop k) :
    position_in_string (pre ++ ((p :: ps) ++ post)) (p :: ps)
      = (pre.length : Int) + ((p :: ps).length : Int) := by
  apply position_in_string_last _ _ pre.length (by simp)
  · simp
  · intro k2 hk2
    obtain ⟨m, rfl⟩ : ∃ m, k2 = pre.length + (m + 1) := ⟨k2 - pre.length - 1, by omega⟩
    rw [← List.drop_drop, List.drop_left, List.cons_append, List.drop_succ_cons]
    exact hlast m

/-- A token at the very end of the text: the position returned is the length
of the text. -/
theorem position_in_string_suffix (p : Char) (ps pre : List Char) :
    position_in_string (pre ++ (p :: ps)) (p :: ps) = ((pre ++ (p :: ps)).length : Int) := by
  have h := position_in_string_token p ps pre [] (by
    intro k hk
    have h1 := hk.length_le
    simp at h1
    omega)
  simp only [List.append_nil] at h
  rw [h]; simp

/-- The state stays what the state stage stored, whatever the later stages
do. -/
theorem parse_comments_state (now : Nat) (str : List Char) (ta : autr_ta)
    (h : position_in_string (copy_comments str) "state=".toList < ((copy_comments str).length : Int)) :
    (parse_comments now str ta).2.s = state_field (copy_comments str) := by
  rw [parse_comments_stages, if_neg (by omega)]
  split_ifs <;> rfl

/-- The pending count is what the count stage stored, whatever the last stage
does. -/
theorem parse_comments_count (now : Nat) (str : List Char) (ta : autr_ta)
    (h1 : position_in_string (copy_comments str) "state=".toList < ((copy_comments str).length : Int))
    (h2 : position_in_string (copy_comments str) "count=".toList < ((copy_comments str).length : Int)) :
    (parse_comments now str ta).2.pending_count = count_field (copy_comments str) := by
  rw [parse_comments_stages, if_neg (by omega), if_neg (by omega)]
  split_ifs <;> rfl

/-- Either the pattern occurs nowhere in the text, or it has a last
occurrence. -/
theorem last_occurrence_cases (sub : List Char) : ∀ s : List Char,
    (∀ k, ¬ (sub ≠ [] ∧ sub <+: s.drop k))
      ∨ ∃ k, sub ≠ [] ∧ sub <+: s.drop k ∧ ∀ k2, k < k2 → ¬ sub <+: s.drop k2 := by
  intro s
  induction s with
  | nil =>
    left
    rintro k ⟨h1, h2⟩
    simp at h2
    exact h1 h2
  | cons c cs ih =>
    rcases ih with ih | ⟨k, hne, hk, hlast⟩
    · by_cases h0 : sub ≠ [] ∧ sub <+: (c :: cs)
      · right
        refine ⟨0, h0.1, by simpa using h0.2, ?_⟩
        intro k2 hk2 hp
        obtain ⟨m, rfl⟩ : ∃ m, k2 = m + 1 := ⟨k2 - 1, by omega⟩
        exact ih m ⟨h0.1, by simpa using hp⟩
      · left
        intro k
        cases k with
        | zero => simpa using h0
        | succ m => simpa using ih m
    · right
      refine ⟨k + 1, hne, by simpa using hk, ?_⟩
      intro k2 hk2 hp
      obtain ⟨m, rfl⟩ : ∃ m, k2 = m + 1 := ⟨k2 - 1, by omega⟩
      exact hlast m (by omega) (by simpa using hp)

/-- The position returned reaches the length of the text only when the text
ends with the pattern. -/
theorem position_lt_of_not_suffix (sub c : List Char) (h : ¬ sub <:+ c) :
    position_in_string c sub < (c.length : Int) := by
  rcases last_occurrence_cases sub c with h0 | ⟨k, hne, hk, hlast⟩
  · rw [position_in_string_absent c sub h0]; omega
  · rw [position_in_string_last c sub k hne hk hlast]
    have hle := hk.length_le
    rw [List.length_drop] at hle
    by_contra hcon
    have hlen : sub.length = (c.drop k).length := by
      rw [List.length_drop]; omega
    exact h (by rw [hk.eq_of_length hlen]; exact List.drop_suffix k c)

/-! ## Facts about the line filter and the file loop -/

theorem str_contains_data_eq_false (comment : Char) : ∀ line : List Char,
    (str_contains_data line comment = false
      ↔ ∀ ch ∈ line.takeWhile (fun x => decide (x ≠ comment ∧ x ≠ '\n')), ch = ' ' ∨ ch = '\t') := by
  intro line
  induction line with
  | nil => simp [str_contains_data]
  | cons c cs ih =>
    by_cases h1 : c = comment ∨ c = '\n'
    · have hp : decide (c ≠ comment ∧ c ≠ '\n') = false := by
        rcases h1 with h | h <;> simp [h]
      rw [List.takeWhile_cons, hp]
      simp only [str_contains_data, if_pos h1]
      simp
    · have hp : decide (c ≠ comment ∧ c ≠ '\n') = true := by
        simp only [decide_eq_true_eq]
        exact ⟨fun h => h1 (Or.inl h), fun h => h1 (Or.inr h)⟩
      rw [List.takeWhile_cons, hp]
      simp only [str_contains_data, if_neg h1, if_true]
      by_cases h3 : c ≠ ' ' ∧ c ≠ '\t'
      · rw [if_pos h3]
        constructor
        · intro h; exact absurd h (by decide)
        · intro hall
          rcases hall c (List.mem_cons_self _ _) with h | h
          · exact absurd h h3.1
          · exact absurd h h3.2
      · have h4 : c = ' ' ∨ c = '\t' := by
          by_contra hcon
          exact h3 ⟨fun h => hcon (Or.inl h), fun h => hcon (Or.inr h)⟩
        rw [if_neg h3, ih]
        constructor
        · intro hall ch hch
          rcases List.mem_cons.1 hch with h | h
          · rw [h]; exact h4
          · exact hall ch h
        · intro hall ch hch
          exact hall ch (List.mem_cons_of_mem _ hch)

theorem read_loop_append (W : Nat) (parse : List Char → Option ldns_rr) (time : Nat → Nat)
    (nm : List Char) : ∀ (pre rest : List (List Char)) (st : read_state),
    read_loop W parse time nm (pre ++ rest) st =
      match read_loop W parse time nm pre st with
      | some (false, st1) => read_loop W parse time nm rest st1
      | other => other := by
  intro pre
  induction pre with
  | nil => intro rest st; simp [read_loop]
  | cons l ls ih =>
    intro rest st
    simp only [List.cons_append, read_loop]
    split_ifs with h1
    · exact ih rest _
    · cases hl : load_trustanchor W parse (time (st.line_nr + 1)) st.anchors l nm with
      | none => rfl
      | some r =>
        obtain ⟨a, otp⟩ := r
        cases otp with
        | none => simp only []; exact ih rest _
        | some tp2 =>
          simp only []
          split_ifs with h2
          · rfl
          · exact ih rest _

/-! ## Facts about the store and the line loader -/

theorem deref_autr_store (a : val_anchors) (tp : Nat) (d0 d : autr_point_data)
    (h : deref_autr a tp = some d0) : deref_autr (store_autr a tp d) tp = some d := by
  unfold deref_autr at h
  cases ht : a.tree[tp]? with
  | none => simp [ht] at h
  | some t =>
    have hlt : tp < a.tree.length := (List.getElem?_eq_some_iff.1 ht).1
    simp [deref_autr, store_autr, ht, List.getElem?_set_self hlt]

theorem store_autr_store (a : val_anchors) (tp : Nat) (d d2 : autr_point_data) :
    store_autr (store_autr a tp d) tp d2 = store_autr a tp d2 := by
  cases ht : a.tree[tp]? with
  | none => simp [store_autr, ht]
  | some t =>
    have hlt : tp < a.tree.length := (List.getElem?_eq_some_iff.1 ht).1
    simp [store_autr, ht, List.getElem?_set_self hlt]

/-- What `load_trustanchor` does, with the key entry followed through the
pointer: the record is parsed, its trust point found or made, and the key
entry, as `parse_comments` leaves it, becomes the head of the keys. -/
theorem load_trustanchor_eq (W : Nat) (parse : List Char → Option ldns_rr) (now : Nat)
    (a : val_anchors) (str nm : List Char) :
    load_trustanchor W parse now a str nm =
      if str_contains_data str ';' = false then some (a, none)
      else
        match parse str with
        | none => some (a, none)
        | some rr =>
          match find_add_tp a rr with
          | (_, none) => none
          | (a1, some tp) =>
            match deref_autr a1 tp with
            | none => none
            | some d =>
              if (parse_comments now str (autr_ta_create rr)).1 = false then
                some (store_autr a1 tp
                  { d with keys := (parse_comments now str (autr_ta_create rr)).2 :: d.keys }, none)
              else
                some (store_autr a1 tp
                  (set_file nm (count_key W (parse_comments now str (autr_ta_create rr)).2
                    { d with keys := (parse_comments now str (autr_ta_create rr)).2 :: d.keys })),
                  some tp) := by
  unfold load_trustanchor add_trustanchor_frm_str add_trustanchor_frm_rr
  cases hdata : str_contains_data str ';'
  · simp
  · simp only [Bool.not_true, Bool.false_eq_true, Bool.true_eq_false, if_false]
    cases hp : parse str with
    | none => simp
    | some rr =>
      simp only []
      cases hf : find_add_tp a rr with
      | mk a1 otp =>
        cases otp with
        | none => simp
        | some tp =>
          simp only []
          cases hd : deref_autr a1 tp with
          | none => simp
          | some d =>
            simp only [deref_autr_store a1 tp d _ hd, store_autr_store]
            cases hr : (parse_comments now str (autr_ta_create rr)).1
            · simp
            · simp only [Bool.not_true, Bool.false_eq_true, Bool.true_eq_false, if_false,
                count_key, set_file]

theorem set_length_append {α : Type} (l : List α) (x y : α) :
    (l ++ [x]).set l.length y = l ++ [y] := by
  induction l with
  | nil => rfl
  | cons a l ih => simp [List.set, ih]

theorem anchor_find_from_append_none (l : List trust_anchor) (t : trust_anchor)
    (name : List Char) (dclass : Nat) (h : anchor_find_from l name dclass = none)
    (ht : ¬ (t.name = name ∧ t.dclass = dclass)) :
    anchor_find_from (l ++ [t]) name dclass = none := by
  induction l with
  | nil => simp [anchor_find_from, ht]
  | cons x xs ih =>
    by_cases hx : x.name = name ∧ x.dclass = dclass
    · simp [anchor_find_from, hx] at h
    · simp only [anchor_find_from, if_neg hx, Option.map_eq_none'] at h
      simp [anchor_find_from, hx, ih h]

/-- Loading a record line whose owner and class have no trust point yet
registers a new trust point at the end of the store. -/
theorem load_trustanchor_fresh (W : Nat) (parse : List Char → Option ldns_rr) (now : Nat)
    (a : val_anchors) (str nm : List Char) (rr : ldns_rr)
    (hd : str_contains_data str ';' = true) (hp : parse str = some rr)
    (hc : (parse_comments now str (autr_ta_create rr)).1 = true)
    (hf : anchor_find a rr.owner rr.rr_class = none) :
    load_trustanchor W parse now a str nm
      = some (⟨a.tree ++ [loaded_point W nm rr (parse_comments now str (autr_ta_create rr)).2]⟩,
          some a.tree.length) := by
  have hrr : ∀ ta, (parse_comments now str ta).2.rr = ta.rr := by
    intro ta
    rw [parse_comments_stages]
    split_ifs <;> rfl
  rw [load_trustanchor_eq]
  simp only [hd, hp, Bool.true_eq_false, if_false, find_add_tp, hf, autr_tp_create, deref_autr,
    List.getElem?_append_right (le_refl _), Nat.sub_self, List.getElem?_cons_zero, hc,
    store_autr, set_length_append]
  simp only [loaded_point, count_key, set_file]
  split_ifs <;> simp_all

theorem set_file_fields (nm : List Char) (d : autr_point_data) :
    (set_file nm d).keys = d.keys ∧ (set_file nm d).valid = d.valid
      ∧ (set_file nm d).missing = d.missing := by
  unfold set_file
  split <;> simp

theorem count_key_fields (W : Nat) (ta : autr_ta) (d : autr_point_data) :
    (count_key W ta d).keys = d.keys
      ∧ (count_key W ta d).valid
        = (if rr_is_dnskey_sep ta.rr = true ∧ ta.s = AUTR_STATE_VALID
           then (d.valid + 1) % 2 ^ W else d.valid)
      ∧ (count_key W ta d).missing
        = (if rr_is_dnskey_sep ta.rr = true ∧ ta.s = AUTR_STATE_MISSING
           then (d.missing + 1) % 2 ^ W else d.missing) := by
  unfold count_key
  by_cases hsep : rr_is_dnskey_sep ta.rr = true
  · by_cases hval : ta.s = AUTR_STATE_VALID
    · have hmis : ¬ ta.s = AUTR_STATE_MISSING := by rw [hval]; decide
      simp [hsep, hval]
    · by_cases hmis : ta.s = AUTR_STATE_MISSING
      · simp [hsep, hval, hmis]
      · simp [hsep, hval, hmis]
  · simp [hsep]

theorem counted_load (W : Nat) (nm : List Char) (ta : autr_ta) (d : autr_point_data)
    (h : counted W d) : counted W (set_file nm (count_key W ta { d with keys := ta :: d.keys })) := by
  obtain ⟨hv, hm⟩ := h
  obtain ⟨e1, e2, e3⟩ := set_file_fields nm (count_key W ta { d with keys := ta :: d.keys })
  obtain ⟨k1, k2, k3⟩ := count_key_fields W ta { d with keys := ta :: d.keys }
  unfold counted
  rw [e1, e2, e3, k1, k2, k3]
  simp only [List.countP_cons, Bool.and_eq_true, decide_eq_true_eq]
  constructor
  · by_cases hc : rr_is_dnskey_sep ta.rr = true ∧ ta.s = AUTR_STATE_VALID
    · rw [if_pos hc, if_pos hc, hv]; simp [Nat.add_mod]
    · rw [if_neg hc, if_neg hc, hv]; simp
  · by_cases hc : rr_is_dnskey_sep ta.rr = true ∧ ta.s = AUTR_STATE_MISSING
    · rw [if_pos hc, if_pos hc, hm]; simp [Nat.add_mod]
    · rw [if_neg hc, if_neg hc, hm]; simp

theorem store_autr_length (a : val_anchors) (tp : Nat) (d : autr_point_data) :
    (store_autr a tp d).tree.length = a.tree.length := by
  unfold store_autr
  split <;> simp

theorem store_counted_store (W n0 : Nat) (a : val_anchors) (tp : Nat) (d : autr_point_data)
    (h : store_counted W n0 a) (hd : n0 ≤ tp → counted W d) :
    store_counted W n0 (store_autr a tp d) := by
  obtain ⟨h1, h2, h3⟩ := h
  refine ⟨by rw [store_autr_length]; exact h1, ?_, ?_⟩
  · intro t ht
    unfold store_autr at ht
    split at ht
    · exact h2 t ht
    · rcases List.mem_or_eq_of_mem_set ht with h | h
      · exact h2 t h
      · rw [h]; simp
  · intro i t dd hi hget hautr
    cases ht0 : a.tree[tp]? with
    | none =>
      simp only [store_autr, ht0] at hget
      exact h3 i t dd hi hget hautr
    | some t0 =>
      have hlt : tp < a.tree.length := (List.getElem?_eq_some_iff.1 ht0).1
      simp only [store_autr, ht0] at hget
      by_cases e : tp = i
      · subst e
        rw [List.getElem?_set_self hlt] at hget
        have ht := Option.some.inj hget
        rw [← ht] at hautr
        simp only [Option.some.injEq] at hautr
        rw [← hautr]
        exact hd hi
      · rw [List.getElem?_set_ne e] at hget
        exact h3 i t dd hi hget hautr

theorem anchor_find_from_lt : ∀ (l : List trust_anchor) (name : List Char) (dclass i : Nat),
    anchor_find_from l name dclass = some i → i < l.length := by
  intro l
  induction l with
  | nil => intro name dclass i h; simp [anchor_find_from] at h
  | cons x xs ih =>
    intro name dclass i h
    by_cases hx : x.name = name ∧ x.dclass = dclass
    · simp only [anchor_find_from, if_pos hx, Option.some.injEq] at h
      subst h; simp
    · simp only [anchor_find_from, if_neg hx, Option.map_eq_some'] at h
      obtain ⟨j, hj, rfl⟩ := h
      have := ih name dclass j hj
      simp; omega

theorem find_add_tp_counted (W n0 : Nat) (a : val_anchors) (rr : ldns_rr)
    (h : store_counted W n0 a) :
    ∃ a1 tp d, find_add_tp a rr = (a1, some tp) ∧ deref_autr a1 tp = some d
      ∧ store_counted W n0 a1 ∧ (n0 ≤ tp → counted W d) ∧ tp < a1.tree.length
      ∧ a.tree.length ≤ a1.tree.length := by
  obtain ⟨h1, h2, h3⟩ := h
  cases hf : anchor_find a rr.owner rr.rr_class with
  | some tp =>
    have hlt := anchor_find_from_lt a.tree _ _ tp hf
    have hget : a.tree[tp]? = some a.tree[tp] := List.getElem?_eq_getElem hlt
    cases hau : (a.tree[tp]).autr with
    | none => exact absurd hau (h2 _ (List.getElem_mem hlt))
    | some d =>
      have hd : deref_autr a tp = some d := by simp [deref_autr, hget, hau]
      refine ⟨a, tp, d, ?_, hd, ⟨h1, h2, h3⟩, fun hn => h3 tp _ d hn hget hau, hlt, le_refl _⟩
      simp [find_add_tp, hf, hd]
  | none =>
    obtain ⟨x, hx, hxa⟩ : ∃ x, (autr_tp_create a rr).1.tree = a.tree ++ [x]
        ∧ x.autr = some { file := none, keys := [], last_queried := 0, next_probe_time := 0,
                          query_failed := 0, valid := 0, missing := 0 } := ⟨_, rfl, rfl⟩
    have hfresh : counted W { file := none, keys := [], last_queried := 0, next_probe_time := 0,
                              query_failed := 0, valid := 0, missing := 0 } := by
      simp [counted]
    refine ⟨(autr_tp_create a rr).1, a.tree.length,
      { file := none, keys := [], last_queried := 0, next_probe_time := 0, query_failed := 0,
        valid := 0, missing := 0 }, ?_, ?_, ⟨?_, ?_, ?_⟩, ?_, ?_, ?_⟩
    · simp only [find_add_tp, hf, autr_tp_create]
    · simp [deref_autr, hx, hxa]
    · rw [hx]; simp; omega
    · intro t ht
      rw [hx] at ht
      simp only [List.mem_append, List.mem_singleton] at ht
      rcases ht with ht | ht
      · exact h2 t ht
      · rw [ht, hxa]; simp
    · intro i t d hi hget hautr
      rw [hx] at hget
      by_cases hlt : i < a.tree.length
      · rw [List.getElem?_append_left hlt] at hget
        exact h3 i t d hi hget hautr
      · rw [List.getElem?_append_right (by omega)] at hget
        cases hk : i - a.tree.length with
        | zero =>
          rw [hk] at hget
          simp only [List.getElem?_cons_zero, Option.some.injEq] at hget
          rw [← hget, hxa] at hautr
          simp only [Option.some.injEq] at hautr
          rw [← hautr]
          exact hfresh
        | succ k =>
          rw [hk] at hget
          simp at hget
    · intro _; exact hfresh
    · rw [hx]; simp
    · rw [hx]; simp

theorem load_trustanchor_counted (W n0 : Nat) (parse : List Char → Option ldns_rr) (now : Nat)
    (a : val_anchors) (str nm : List Char) (h : store_counted W n0 a)
    (hok : ∀ rr, parse str = some rr → ∀ now ta, (parse_comments now str ta).1 = true) :
    ∃ a2 r, load_trustanchor W parse now a str nm = some (a2, r) ∧ store_counted W n0 a2
      ∧ (∀ tp, r = some tp → tp < a2.tree.length) ∧ a.tree.length ≤ a2.tree.length := by
  rw [load_trustanchor_eq]
  cases hdata : str_contains_data str ';'
  · exact ⟨a, none, by simp, h, by simp, le_refl _⟩
  · cases hp : parse str with
    | none => exact ⟨a, none, by simp, h, by simp, le_refl _⟩
    | some rr =>
      obtain ⟨a1, tp, d, hf, hd, hs, hc, hlt, hle⟩ := find_add_tp_counted W n0 a rr h
      have hpc := hok rr hp now (autr_ta_create rr)
      refine ⟨store_autr a1 tp (set_file nm (count_key W
        (parse_comments now str (autr_ta_create rr)).2
        { d with keys := (parse_comments now str (autr_ta_create rr)).2 :: d.keys })), some tp,
        ?_, ?_, ?_, ?_⟩
      · simp [hf, hd, hpc]
      · exact store_counted_store W n0 a1 tp _ hs (fun hn => counted_load W nm _ d (hc hn))
      · intro tp2 h2
        rw [store_autr_length]
        simp only [Option.some.injEq] at h2
        omega
      · rw [store_autr_length]; exact hle

theorem read_loop_counted (W n0 : Nat) (parse : List Char → Option ldns_rr) (time : Nat → Nat)
    (nm : List Char) : ∀ (lines : List (List Char)) (st : read_state),
    store_counted W n0 st.anchors → (∀ tp, st.tp = some tp → tp < st.anchors.tree.length) →
    (∀ l ∈ lines, ∀ rr, parse l = some rr → ∀ now ta, (parse_comments now l ta).1 = true) →
    ∃ b st2, read_loop W parse time nm lines st = some (b, st2) ∧ store_counted W n0 st2.anchors
      ∧ (∀ tp, st2.tp = some tp → tp < st2.anchors.tree.length) := by
  intro lines
  induction lines with
  | nil => intro st h1 h2 _; exact ⟨false, st, rfl, h1, h2⟩
  | cons l ls ih =>
    intro st h1 h2 hok
    have hok2 : ∀ l2 ∈ ls, ∀ rr, parse l2 = some rr → ∀ now ta,
        (parse_comments now l2 ta).1 = true := fun l2 hl2 => hok l2 (List.mem_cons_of_mem _ hl2)
    simp only [read_loop]
    split_ifs with hdata
    · exact ih _ h1 h2 hok2
    · obtain ⟨a2, r, hl, hs, hr, hle⟩ := load_trustanchor_counted W n0 parse
        (time (st.line_nr + 1)) st.anchors l nm h1 (hok l (List.mem_cons_self _ _))
      rw [hl]
      cases r with
      | none =>
        exact ih _ hs (fun tp htp => lt_of_lt_of_le (h2 tp htp) hle) hok2
      | some tp2 =>
        simp only []
        split_ifs with hm
        · exact ⟨true, _, rfl, hs, fun tp htp => lt_of_lt_of_le (h2 tp htp) hle⟩
        · exact ih _ hs (fun tp htp => by
            simp only [Option.some.injEq] at htp
            rw [← htp]; exact hr tp2 rfl) hok2

/-- A comment that holds none of the three tokens: `parse_comments` succeeds
with the defaults. -/
theorem parse_comments_default (now : Nat) (str : List Char) (ta : autr_ta)
    (h1 : ¬ "state=".toList <:+: copy_comments str)
    (h2 : ¬ "count=".toList <:+: copy_comments str)
    (h3 : ¬ "lastchange=".toList <:+: copy_comments str) :
    parse_comments now str ta
      = (true, { ta with s := AUTR_STATE_VALID, pending_count := 0,
                         last_change := now % 4294967296 }) := by
  obtain ⟨c, hc⟩ : ∃ c, copy_comments str = c := ⟨_, rfl⟩
  rw [hc] at h1 h2 h3
  have p1 : position_in_string c "state=".toList = -1 :=
    position_in_string_absent _ _ (fun k hk => no_occurrence_of_absent _ _ h1 k hk.2)
  have p2 : position_in_string c "count=".toList = -1 :=
    position_in_string_absent _ _ (fun k hk => no_occurrence_of_absent _ _ h2 k hk.2)
  have p3 : position_in_string c "lastchange=".toList = -1 :=
    position_in_string_absent _ _ (fun k hk => no_occurrence_of_absent _ _ h3 k hk.2)
  have hrest : count_rest c = c := by simp only [count_rest, p2]; simp
  have f1 : state_field c = AUTR_STATE_VALID := by simp only [state_field, p1]; simp
  have f2 : count_field c = 0 := by simp only [count_field, p2]; simp
  have f3 : lastchange_field now c = now % 4294967296 := by
    simp only [lastchange_field, p3]; simp
  have g : ¬ ((-1 : Int) ≥ (c.length : Int)) := by omega
  rw [parse_comments_stages, hc, hrest, p1, p2, p3, f1, f2, f3, if_neg g, if_neg g, if_neg g]

/-! ## Facts about the probe pipeline -/

/-- The failure paths of `autr_process_prime`: no key set, or a key set that
`verify_dnskey` rejects. -/
theorem autr_process_prime_failed (WQ : Nat)
    (ds_check key_check : List ldns_rr → List ldns_rr → sec_status) (now : Nat)
    (tp : trust_anchor) (d : autr_point_data) (dnskey_rrset : Option (List ldns_rr))
    (hd : tp.autr = some d)
    (hfail : dnskey_rrset = none ∨ ∃ rrset, dnskey_rrset = some rrset
      ∧ (verify_dnskey ds_check key_check
          { tp with autr := some { d with last_queried := now } } rrset).1 = 0) :
    autr_process_prime WQ ds_check key_check now tp dnskey_rrset
      = some (1, { tp with autr := some { d with last_queried := now,
                                                 query_failed := (d.query_failed + 1) % 2 ^ WQ } }) := by
  unfold autr_process_prime
  rcases hfail with h | ⟨rrset, h, hv⟩
  · simp [hd, h]
  · simp [hd, h, hv]

/-- The success path of `autr_process_prime`: a key set that `verify_dnskey`
accepts. -/
theorem autr_process_prime_verified (WQ : Nat)
    (ds_check key_check : List ldns_rr → List ldns_rr → sec_status) (now : Nat)
    (tp : trust_anchor) (d : autr_point_data) (rrset : List ldns_rr)
    (hd : tp.autr = some d)
    (hv : (verify_dnskey ds_check key_check
          { tp with autr := some { d with last_queried := now } } rrset).1 ≠ 0) :
    autr_process_prime WQ ds_check key_check now tp (some rrset)
      = some (1, { tp with autr := some { d with last_queried := now, query_failed := 0 },
                           ds_rrset := none, dnskey_rrset := none }) := by
  unfold autr_process_prime
  simp [hd, hv, autr_assemble]

/-- The trust point's verification sets decide `verify_dnskey`, not its
autotrust data. -/
theorem verify_dnskey_autr (ds_check key_check : List ldns_rr → List ldns_rr → sec_status)
    (tp : trust_anchor) (x : Option autr_point_data) (rrset : List ldns_rr) :
    verify_dnskey ds_check key_check { tp with autr := x } rrset
      = verify_dnskey ds_check key_check tp rrset := by
  simp [verify_dnskey, verify_dnskey_keys]

/-! ## Further facts about `position_in_string` and the comment parser -/

theorem occurrence_of_contained (p s : List Char) (h : p <:+: s) : ∃ k, p <+: s.drop k := by
  obtain ⟨a, b, hab⟩ := h
  refine ⟨a.length, b, ?_⟩
  rw [← hab, List.append_assoc, List.drop_left]

/-- The check `pos >= strlen(comments)` fires exactly when the text ends with
the token. -/
theorem position_ge_iff_suffix (q : Char) (qs c : List Char) :
    position_in_string c (q :: qs) ≥ (c.length : Int) ↔ (q :: qs) <:+ c := by
  constructor
  · intro h
    by_contra hn
    have := position_lt_of_not_suffix (q :: qs) c hn
    omega
  · rintro ⟨pre, rfl⟩
    rw [position_in_string_suffix q qs pre]

theorem count_rest_suffix (c : List Char) : count_rest c <:+ c := by
  unfold count_rest
  simp only []
  split_ifs
  · exact List.suffix_refl c
  · exact List.drop_suffix _ c

/-- A comment that ends with `lastchange=` and passes the count check still
ends with `lastchange=` after the count. -/
theorem lastchange_suffix_count_rest (c : List Char)
    (hs : "lastchange=".toList <:+ c)
    (h2 : position_in_string c "count=".toList < (c.length : Int)) :
    "lastchange=".toList <:+ count_rest c := by
  rcases last_occurrence_cases "count=".toList c with h0 | ⟨k, hne, hk, hlast⟩
  · have hpos := position_in_string_absent c _ h0
    simp only [count_rest, hpos]
    simpa using hs
  · have hpos := position_in_string_last c _ k hne hk hlast
    obtain ⟨x, rfl⟩ := hs
    rw [hpos] at h2
    have hlen : (x ++ "lastchange=".toList).length = x.length + 11 := by simp
    have hk6 : k + 6 < x.length + 11 := by
      have : ("count=".toList.length : Int) = 6 := rfl
      rw [this, hlen] at h2
      omega
    have hle : k + 6 ≤ x.length := by
      by_contra hcon
      obtain ⟨t, ht⟩ := hk
      have e1 : (List.drop k (x ++ "lastchange=".toList))[5]? = some '=' := by
        rw [← ht]; simp
      rw [List.getElem?_drop, List.getElem?_append_right (by omega)] at e1
      obtain ⟨j, hj⟩ : ∃ j, k + 5 - x.length = j := ⟨_, rfl⟩
      rw [hj] at e1
      have hj9 : j ≤ 9 := by omega
      interval_cases j <;> simp at e1
    have e : ((k : Int) + ("count=".toList.length : Int)).toNat = k + 6 := by
      have : ("count=".toList.length : Int) = 6 := rfl
      rw [this]; omega
    have hnot : ¬ ((k : Int) + ("count=".toList.length : Int) ≤ 0) := by
      have : ("count=".toList.length : Int) = 6 := rfl
      rw [this]; omega
    simp only [count_rest, hpos, if_neg hnot, e]
    rw [List.drop_append_of_le_length hle]
    exact List.suffix_append _ _

/-- When `parse_comments` fails, in terms of the three checks. -/
theorem parse_comments_fails (now : Nat) (str : List Char) (ta : autr_ta) :
    (parse_comments now str ta).1 = false ↔
      (position_in_string (copy_comments str) "state=".toList ≥ ((copy_comments str).length : Int)
        ∨ position_in_string (copy_comments str) "count=".toList
            ≥ ((copy_comments str).length : Int)
        ∨ position_in_string (count_rest (copy_comments str)) "lastchange=".toList
            ≥ ((count_rest (copy_comments str)).length : Int)) := by
  rw [parse_comments_stages]
  by_cases h1 : position_in_string (copy_comments str) "state=".toList
      ≥ ((copy_comments str).length : Int)
  · rw [if_pos h1]
    exact ⟨fun _ => Or.inl h1, fun _ => rfl⟩
  · rw [if_neg h1]
    by_cases h2 : position_in_string (copy_comments str) "count=".toList
        ≥ ((copy_comments str).length : Int)
    · rw [if_pos h2]
      exact ⟨fun _ => Or.inr (Or.inl h2), fun _ => rfl⟩
    · rw [if_neg h2]
      by_cases h3 : position_in_string (count_rest (copy_comments str)) "lastchange=".toList
          ≥ ((count_rest (copy_comments str)).length : Int)
      · rw [if_pos h3]
        exact ⟨fun _ => Or.inr (Or.inr h3), fun _ => rfl⟩
      · rw [if_neg h3]
        constructor
        · intro h; exact absurd h (by simp)
        · rintro (h | h | h)
          · exact absurd h h1
          · exact absurd h h2
          · exact absurd h h3

/-- The comment text decides: `parse_comments` fails exactly when it ends with
one of the three tokens. -/
theorem parse_comments_fails_suffix (now : Nat) (str : List Char) (ta : autr_ta) :
    (parse_comments now str ta).1 = false ↔
      ("state=".toList <:+ copy_comments str ∨ "count=".toList <:+ copy_comments str
        ∨ "lastchange=".toList <:+ copy_comments str) := by
  rw [parse_comments_fails]
  have e1 := position_ge_iff_suffix 's' "tate=".toList (copy_comments str)
  have e2 := position_ge_iff_suffix 'c' "ount=".toList (copy_comments str)
  have e3 := position_ge_iff_suffix 'l' "astchange=".toList (count_rest (copy_comments str))
  have s1 : "state=".toList = 's' :: "tate=".toList := rfl
  have s2 : "count=".toList = 'c' :: "ount=".toList := rfl
  have s3 : "lastchange=".toList = 'l' :: "astchange=".toList := rfl
  rw [← s1] at e1
  rw [← s2] at e2
  rw [← s3] at e3
  rw [e1, e2, e3]
  constructor
  · rintro (h | h | h)
    · exact Or.inl h
    · exact Or.inr (Or.inl h)
    · exact Or.inr (Or.inr (h.trans (count_rest_suffix _)))
  · rintro (h | h | h)
    · exact Or.inl h
    · exact Or.inr (Or.inl h)
    · by_cases h2 : "count=".toList <:+ copy_comments str
      · exact Or.inr (Or.inl h2)
      · refine Or.inr (Or.inr (lastchange_suffix_count_rest _ h ?_))
        have := e2.not.2 h2
        omega

/-! ## Facts about the results of loading a file -/

theorem store_autr_all_autr (a : val_anchors) (tp : Nat) (d : autr_point_data)
    (h : all_autr a) : all_autr (store_autr a tp d) := by
  intro t ht
  unfold store_autr at ht
  split at ht
  · exact h t ht
  · rcases List.mem_or_eq_of_mem_set ht with h2 | h2
    · exact h t h2
    · rw [h2]; simp

theorem load_trustanchor_defined (W : Nat) (parse : List Char → Option ldns_rr) (now : Nat)
    (a : val_anchors) (str nm : List Char) (h : all_autr a) :
    ∃ a2 r, load_trustanchor W parse now a str nm = some (a2, r) ∧ all_autr a2
      ∧ (∀ tp, r = some tp → tp < a2.tree.length) ∧ a.tree.length ≤ a2.tree.length
      ∧ (str_contains_data str ';' = false → r = none ∧ a2 = a) := by
  rw [load_trustanchor_eq]
  cases hdata : str_contains_data str ';'
  · exact ⟨a, none, by simp, h, by simp, le_refl _, fun _ => ⟨rfl, rfl⟩⟩
  · cases hp : parse str with
    | none => exact ⟨a, none, by simp, h, by simp, le_refl _, fun hh => absurd hh (by simp)⟩
    | some rr =>
      have hs : store_counted 0 a.tree.length a := by
        refine ⟨le_refl _, h, ?_⟩
        intro i t d hi hget _
        rw [List.getElem?_eq_none (by omega)] at hget
        exact absurd hget (by simp)
      obtain ⟨a1, tp, d, hf, hd, hs1, _, hlt, hle⟩ :=
        find_add_tp_counted 0 a.tree.length a rr hs
      have h1 : all_autr a1 := hs1.2.1
      cases hpc : (parse_comments now str (autr_ta_create rr)).1
      · refine ⟨_, none, by simp [hf, hd, hpc]; rfl, store_autr_all_autr a1 tp _ h1, by simp,
          by rw [store_autr_length]; exact hle, fun hh => absurd hh (by simp)⟩
      · refine ⟨_, some tp, by simp [hf, hd, hpc]; rfl, store_autr_all_autr a1 tp _ h1, ?_,
          by rw [store_autr_length]; exact hle, fun hh => absurd hh (by simp)⟩
        intro tp2 h2
        rw [store_autr_length]
        simp only [Option.some.injEq] at h2
        omega

theorem load_results_defined (W : Nat) (parse : List Char → Option ldns_rr) (time : Nat → Nat)
    (nm : List Char) : ∀ (lines : List (List Char)) (a : val_anchors) (n : Nat),
    all_autr a → ∃ rs, load_results W parse time nm lines a n = some rs := by
  intro lines
  induction lines with
  | nil => intro a n _; exact ⟨[], rfl⟩
  | cons l ls ih =>
    intro a n h
    obtain ⟨a2, r, hl, h2, _, _, _⟩ := load_trustanchor_defined W parse (time (n + 1)) a l nm h
    obtain ⟨rs, hrs⟩ := ih a2 (n + 1) h2
    exact ⟨r :: rs, by simp [load_results, hl, hrs]⟩

theorem same_point_none (x : Option Nat) (xs : List (Option Nat)) :
    same_point (x :: none :: xs) ↔ same_point (x :: xs) := by
  unfold same_point
  simp

theorem same_point_dup (t : Nat) (xs : List (Option Nat)) :
    same_point (some t :: some t :: xs) ↔ same_point (some t :: xs) := by
  unfold same_point
  simp

theorem same_point_none_head (xs : List (Option Nat)) :
    same_point (none :: xs) ↔ same_point xs := by
  unfold same_point
  simp

/-- The loop of `autr_read_file` against the line-by-line results of
`load_trustanchor`: it is left by the mismatch return exactly when the trust
point held before and the trust points loaded are not all the same. -/
theorem read_loop_results (W : Nat) (parse : List Char → Option ldns_rr) (time : Nat → Nat)
    (nm : List Char) : ∀ (lines : List (List Char)) (st : read_state),
    all_autr st.anchors → (∀ tp, st.tp = some tp → tp < st.anchors.tree.length) →
    ∃ b st2 rs, read_loop W parse time nm lines st = some (b, st2)
      ∧ load_results W parse time nm lines st.anchors st.line_nr = some rs
      ∧ all_autr st2.anchors ∧ (∀ tp, st2.tp = some tp → tp < st2.anchors.tree.length)
      ∧ (b = false ↔ same_point (st.tp :: rs))
      ∧ (b = false → (st2.tp.isSome = true ↔ (st.tp.isSome = true ∨ ∃ t, some t ∈ rs))) := by
  intro lines
  induction lines with
  | nil =>
    intro st h1 h2
    refine ⟨false, st, [], rfl, rfl, h1, h2, ?_, ?_⟩
    · simp only [true_iff]
      intro t1 t2 ht1 ht2
      simp only [List.mem_singleton] at ht1 ht2
      rw [← ht1] at ht2
      exact (Option.some.inj ht2).symm
    · intro _; simp
  | cons l ls ih =>
    intro st h1 h2
    obtain ⟨a2, r, hl, ha2, hr, hle, hblank⟩ :=
      load_trustanchor_defined W parse (time (st.line_nr + 1)) st.anchors l nm h1
    have hres : ∀ rs, load_results W parse time nm ls a2 (st.line_nr + 1) = some rs →
        load_results W parse time nm (l :: ls) st.anchors st.line_nr = some (r :: rs) := by
      intro rs hrs
      simp [load_results, hl, hrs]
    simp only [read_loop]
    split_ifs with hdata
    · have hd2 : str_contains_data l ';' = false := by simpa using hdata
      obtain ⟨rfl, rfl⟩ := hblank hd2
      obtain ⟨b, st2, rs, e1, e2, e3, e4, e5, e6⟩ :=
        ih { st with line_nr := st.line_nr + 1 } h1 h2
      refine ⟨b, st2, none :: rs, e1, hres rs e2, e3, e4, ?_, ?_⟩
      · rw [same_point_none]; exact e5
      · intro hb
        rw [e6 hb]
        simp
    · rw [hl]
      cases r with
      | none =>
        obtain ⟨b, st2, rs, e1, e2, e3, e4, e5, e6⟩ :=
          ih { st with line_nr := st.line_nr + 1, anchors := a2,
                       failed := st.failed ++ [st.line_nr + 1] } ha2
            (fun tp htp => lt_of_lt_of_le (h2 tp htp) hle)
        refine ⟨b, st2, none :: rs, e1, hres rs e2, e3, e4, ?_, ?_⟩
        · rw [same_point_none]; exact e5
        · intro hb
          rw [e6 hb]
          simp
      | some tp2 =>
        simp only []
        split_ifs with hm
        · obtain ⟨rs, hrs⟩ := load_results_defined W parse time nm ls a2 (st.line_nr + 1) ha2
          refine ⟨true, _, some tp2 :: rs, rfl, hres rs hrs, ha2,
            fun tp htp => lt_of_lt_of_le (h2 tp htp) hle, ?_, ?_⟩
          · simp only [Bool.true_eq_false, false_iff]
            intro hsame
            obtain ⟨hsome, hne⟩ := hm
            obtain ⟨t, ht⟩ := Option.isSome_iff_exists.1 hsome
            have := hsame t tp2 (by simp [ht]) (by simp)
            exact hne (by rw [ht, this])
          · intro hb; exact absurd hb (by simp)
        · obtain ⟨b, st2, rs, e1, e2, e3, e4, e5, e6⟩ :=
            ih { st with line_nr := st.line_nr + 1, anchors := a2, tp := some tp2 } ha2
              (fun tp htp => by
                simp only [Option.some.injEq] at htp
                rw [← htp]; exact hr tp2 rfl)
          have htp : st.tp = none ∨ st.tp = some tp2 := by
            cases hst : st.tp with
            | none => exact Or.inl rfl
            | some t =>
              right
              by_contra hne
              exact hm ⟨by simp [hst], by rw [hst]; exact hne⟩
          refine ⟨b, st2, some tp2 :: rs, e1, hres rs e2, e3, e4, ?_, ?_⟩
          · rw [e5]
            rcases htp with h | h
            · rw [h, same_point_none_head]
            · rw [h, same_point_dup]
          · intro hb
            rw [e6 hb]
            simp

/-! ## The comment parser on well-formed and malformed comments -/

/-- C1. A record line whose comment is `;state=<d> count=<n> lastchange=<t>`,
with `d` one of the digits 0 to 5, `n` a decimal integer of value 0..255 and
`t` a decimal integer of value 1..2^31-1, with or without a trailing newline:
`parse_comments` succeeds and leaves the state with code `d`, the pending
count `n` and the last change `t` in the key entry. -/
theorem parse_comments_full_comment (now : Nat) (r : List Char) (d : Char)
    (nd td nl : List Char) (ta : autr_ta)
    (hr : ';' ∉ r) (hd : d ∈ ['0', '1', '2', '3', '4', '5'])
    (hnd : nd ≠ []) (hnd2 : ∀ c ∈ nd, c.isDigit = true) (hn : decimal_value nd ≤ 255)
    (htd : td ≠ []) (htd2 : ∀ c ∈ td, c.isDigit = true)
    (ht1 : 1 ≤ decimal_value td) (ht2 : decimal_value td ≤ 2147483647)
    (hnl : nl = [] ∨ nl = ['\n']) :
    parse_comments now
        (r ++ ";state=".toList ++ [d] ++ " count=".toList ++ nd ++ " lastchange=".toList
          ++ td ++ nl) ta
      = (true, { ta with s := (d.toNat : Int) - 48, pending_count := decimal_value nd,
                         last_change := decimal_value td }) := by
  have hnl1 : ∀ c, nl.head? = some c → c.isDigit = false := by
    rcases hnl with h | h <;> simp [h]
  have hnlq : ∀ p : Char, p ≠ '\n' → ∀ c ∈ nl, c ≠ p := by
    intro p hp c hc
    rcases hnl with h | h
    · simp [h] at hc
    · simp [h] at hc; rw [hc]; exact fun e => hp e.symm
  have hd_s : d ≠ 's' := by rintro rfl; simp at hd
  have hd_c : d ≠ 'c' := by rintro rfl; simp at hd
  -- the comment text, and the part of it after the count token
  obtain ⟨c2, hc2⟩ : ∃ x, x = nd ++ (" ".toList ++ ("lastchange=".toList ++ (td ++ nl))) :=
    ⟨_, rfl⟩
  obtain ⟨c, hc⟩ : ∃ x, x = "state=".toList ++ ([d] ++ (" ".toList ++ ("count=".toList ++ c2))) :=
    ⟨_, rfl⟩
  have hline : r ++ ";state=".toList ++ [d] ++ " count=".toList ++ nd ++ " lastchange=".toList
      ++ td ++ nl = r ++ ';' :: c := by
    simp [hc, hc2]
  -- the state token
  have p1 : position_in_string c "state=".toList = 6 := by
    have h := position_in_string_at 's' "tate=".toList []
      ([d] ++ (" ".toList ++ ("count=".toList ++ c2))) (by simp) (by
        rw [hc2]
        apply quiet_skip _ _ "tate=".toList _ (by decide)
        apply quiet_skip _ _ [d] _ (by simpa using hd_s)
        apply quiet_skip _ _ " count=".toList _ (by decide)
        apply quiet_skip _ _ nd _ (fun c hc => isDigit_ne c 's' (hnd2 c hc) (by decide))
        apply quiet_skip _ _ " la".toList _ (by decide)
        apply quiet_cons _ _ _ (by simp)
        apply quiet_skip _ _ "tchange=".toList _ (by decide)
        apply quiet_skip _ _ td _ (fun c hc => isDigit_ne c 's' (htd2 c hc) (by decide))
        exact quiet_all _ _ nl (hnlq 's' (by decide)))
    rw [hc]; simpa using h
  -- the count token
  have p2 : position_in_string c "count=".toList = 14 := by
    have h := position_in_string_at 'c' "ount=".toList ("state=".toList ++ [d] ++ " ".toList) c2
      (by
        intro x hx
        simp only [List.mem_append, List.mem_singleton] at hx
        rcases hx with (hx | hx) | hx
        · revert x; decide
        · rw [hx]; exact hd_c
        · revert x; decide)
      (by
        rw [hc2]
        apply quiet_skip _ _ "ount=".toList _ (by decide)
        apply quiet_skip _ _ nd _ (fun c hc => isDigit_ne c 'c' (hnd2 c hc) (by decide))
        apply quiet_skip _ _ " last".toList _ (by decide)
        apply quiet_cons _ _ _ (by simp)
        apply quiet_skip _ _ "hange=".toList _ (by decide)
        apply quiet_skip _ _ td _ (fun c hc => isDigit_ne c 'c' (htd2 c hc) (by decide))
        exact quiet_all _ _ nl (hnlq 'c' (by decide)))
    rw [hc]; simpa using h
  -- the lastchange token
  have p3 : position_in_string c2 "lastchange=".toList = (nd.length : Int) + 12 := by
    have h := position_in_string_at 'l' "astchange=".toList (nd ++ " ".toList) (td ++ nl)
      (by
        intro x hx
        simp only [List.mem_append] at hx
        rcases hx with hx | hx
        · exact isDigit_ne x 'l' (hnd2 x hx) (by decide)
        · revert x; decide)
      (by
        apply quiet_skip _ _ "astchange=".toList _ (by decide)
        apply quiet_skip _ _ td _ (fun c hc => isDigit_ne c 'l' (htd2 c hc) (by decide))
        exact quiet_all _ _ nl (hnlq 'l' (by decide)))
    rw [hc2]
    simp at h ⊢
    rw [h]; ring
  have hdrop : c.drop 14 = c2 := by rw [hc]; simp
  have hget : c.getD 6 '\x00' = d := by rw [hc]; simp
  have hlen : c.length = 14 + c2.length := by rw [hc]; simp; omega
  have hdrop2 : c2.drop (nd.length + 12) = td ++ nl := by rw [hc2]; simp
  have hlen2 : c2.length = nd.length + 12 + td.length + nl.length := by rw [hc2]; simp; omega
  have htl : 0 < td.length := List.length_pos.2 htd
  have a1 : atoi c2 = (decimal_value nd : Int) := by
    rw [hc2]; exact atoi_of_digits nd _ hnd hnd2 (by simp)
  have a2 : atoi (td ++ nl) = (decimal_value td : Int) := atoi_of_digits td nl htd htd2 hnl1
  have hrest : count_rest c = c2 := by
    simp only [count_rest, p2]; simpa using hdrop
  have f1 : state_field c = (d.toNat : Int) - 48 := by
    simp only [state_field, p1]
    have : Int.toNat 6 = 6 := rfl
    rw [this, hget]
    simp at hd
    rcases hd with h | h | h | h | h | h <;> (subst h; decide)
  have f2 : count_field c = decimal_value nd := by
    simp only [count_field, p2, hrest, a1]
    have : ¬ ((14 : Int) ≤ 0) := by decide
    rw [if_neg this]
    omega
  have f3 : lastchange_field now c2 = decimal_value td := by
    have e : ((nd.length : Int) + 12).toNat = nd.length + 12 := by omega
    simp only [lastchange_field, p3, e, hdrop2, a2]
    have h0 : (nd.length : Int) + 12 ≥ 0 := by omega
    have h1 : ¬ ((nd.length : Int) + 12 < 0) := by omega
    have h2 : ¬ ((decimal_value td : Int) = 0) := by omega
    simp only [h0, if_true, h1, h2, or_self, if_false]
    omega
  rw [hline, parse_comments_stages, copy_comments_append r c hr, hrest, p1, p2, p3, f1, f2, f3]
  have g1 : ¬ ((6 : Int) ≥ (c.length : Int)) := by omega
  have g2 : ¬ ((14 : Int) ≥ (c.length : Int)) := by omega
  have g3 : ¬ ((nd.length : Int) + 12 ≥ (c2.length : Int)) := by omega
  rw [if_neg g1, if_neg g2, if_neg g3]

/-- The spec example for C1: the comment `;state=2 count=0 lastchange=1000000000`
gives state Valid, pending count 0 and last change 1000000000. -/
theorem parse_comments_full_comment_witness :
    parse_comments 1234567890
        "example. 3600 IN DNSKEY 257 3 5 AQ== ;state=2 count=0 lastchange=1000000000".toList
        sample_ta
      = (true, { sample_ta with s := AUTR_STATE_VALID, pending_count := 0,
                                last_change := 1000000000 }) :=
  parse_comments_full_comment 1234567890 "example. 3600 IN DNSKEY 257 3 5 AQ== ".toList '2'
    "0".toList "1000000000".toList [] sample_ta (by decide) (by decide) (by decide) (by decide)
    (by decide) (by decide) (by decide) (by decide) (by decide) (Or.inl rfl)

/-- C2. A record line with no trailing comment (no `;` in the line, or a
comment that holds none of the tokens `state=`, `count=`, `lastchange=`):
`parse_comments` succeeds with state Valid, pending count 0 and the clock
value at load as last change (as the 32-bit field stores it, so the clock
value itself while it is below 2^32). -/
theorem parse_comments_no_comment (now : Nat) (str : List Char) (ta : autr_ta)
    (h : ';' ∉ str ∨ ∃ r c, str = r ++ ';' :: c ∧ ';' ∉ r ∧ ¬ "state=".toList <:+: c
      ∧ ¬ "count=".toList <:+: c ∧ ¬ "lastchange=".toList <:+: c) :
    parse_comments now str ta
        = (true, { ta with s := AUTR_STATE_VALID, pending_count := 0,
                           last_change := now % 4294967296 })
      ∧ (now < 4294967296 → parse_comments now str ta
        = (true, { ta with s := AUTR_STATE_VALID, pending_count := 0, last_change := now })) := by
  have key : ¬ "state=".toList <:+: copy_comments str
      ∧ ¬ "count=".toList <:+: copy_comments str
      ∧ ¬ "lastchange=".toList <:+: copy_comments str := by
    rcases h with h | ⟨r, c, rfl, hr, h1, h2, h3⟩
    · rw [copy_comments_none str h]
      refine ⟨?_, ?_, ?_⟩ <;> decide
    · rw [copy_comments_append r c hr]
      exact ⟨h1, h2, h3⟩
  have main := parse_comments_default now str ta key.1 key.2.1 key.2.2
  refine ⟨main, fun hn => ?_⟩
  rw [main, Nat.mod_eq_of_lt hn]

/-- A record line without any `;`, loaded at clock value 1234567890. -/
theorem parse_comments_no_comment_witness :
    parse_comments 1234567890 "example. 3600 IN DNSKEY 257 3 5 AQ==\n".toList sample_ta
        = (true, { sample_ta with s := AUTR_STATE_VALID, pending_count := 0,
                                  last_change := 1234567890 % 4294967296 })
      ∧ (1234567890 < 4294967296 →
          parse_comments 1234567890 "example. 3600 IN DNSKEY 257 3 5 AQ==\n".toList sample_ta
            = (true, { sample_ta with s := AUTR_STATE_VALID, pending_count := 0,
                                      last_change := 1234567890 })) :=
  parse_comments_no_comment 1234567890 "example. 3600 IN DNSKEY 257 3 5 AQ==\n".toList sample_ta
    (Or.inl (by decide))

/-- Counterexample to C3 as stated: in `;state=9 state=2` a `state=` is
followed by `9`, which is none of the six codes, and the state read is Valid,
not Start. -/
theorem parse_comments_undefined_state_counterexample :
    (parse_comments 1234567890 "example. 3600 IN DNSKEY 257 3 5 AQ== ;state=9 state=2".toList
        sample_ta).2.s = AUTR_STATE_VALID
      ∧ AUTR_STATE_VALID ≠ AUTR_STATE_START := by
  decide

/-- C3, amended. When the last `state=` token of the comment is followed by a
character that is none of the codes `0` to `5`, the state check of
`parse_comments` does not fail and the state stored is Start, whatever the
later fields do. -/
theorem parse_comments_undefined_state (now : Nat) (r pre rest : List Char) (ch : Char)
    (ta : autr_ta) (hr : ';' ∉ r) (hch : ch ∉ ['0', '1', '2', '3', '4', '5'])
    (hlast : ¬ "state=".toList <:+: (ch :: rest)) :
    position_in_string (copy_comments (r ++ ';' :: (pre ++ ("state=".toList ++ ch :: rest))))
        "state=".toList
      < ((copy_comments (r ++ ';' :: (pre ++ ("state=".toList ++ ch :: rest)))).length : Int)
    ∧ (parse_comments now (r ++ ';' :: (pre ++ ("state=".toList ++ ch :: rest))) ta).2.s
      = AUTR_STATE_START := by
  have hc := copy_comments_append r (pre ++ ("state=".toList ++ ch :: rest)) hr
  have p1 : position_in_string (pre ++ ("state=".toList ++ ch :: rest)) "state=".toList
      = (pre.length : Int) + 6 :=
    position_in_string_token 's' "tate=".toList pre (ch :: rest)
      (not_prefix_drop_skip 's' _ "tate=".toList (ch :: rest) (by decide)
        (no_occurrence_of_absent _ _ hlast))
  have hlt : position_in_string (pre ++ ("state=".toList ++ ch :: rest)) "state=".toList
      < ((pre ++ ("state=".toList ++ ch :: rest)).length : Int) := by
    rw [p1]; simp; omega
  rw [hc]
  refine ⟨hlt, ?_⟩
  rw [parse_comments_state now _ ta (by rw [hc]; exact hlt), hc]
  have e : ((pre.length : Int) + 6).toNat = pre.length + 6 := by omega
  have hget : (pre ++ ("state=".toList ++ ch :: rest)).getD (pre.length + 6) '\x00' = ch := by
    have e6 : pre.length + 6 - pre.length = 6 := by omega
    rw [List.getD_eq_getElem?_getD, List.getElem?_append_right (by omega), e6]
    simp
  have hpos : ¬ ((pre.length : Int) + 6 ≤ 0) := by omega
  simp only [state_field, p1, e, hget, if_neg hpos]
  have hcode : ¬ (((ch.toNat : Int) - ('0'.toNat : Int)) = AUTR_STATE_START
      ∨ ((ch.toNat : Int) - ('0'.toNat : Int)) = AUTR_STATE_ADDPEND
      ∨ ((ch.toNat : Int) - ('0'.toNat : Int)) = AUTR_STATE_VALID
      ∨ ((ch.toNat : Int) - ('0'.toNat : Int)) = AUTR_STATE_MISSING
      ∨ ((ch.toNat : Int) - ('0'.toNat : Int)) = AUTR_STATE_REVOKED
      ∨ ((ch.toNat : Int) - ('0'.toNat : Int)) = AUTR_STATE_REMOVED) := by
    have h48 : ('0' : Char).toNat = 48 := rfl
    rw [h48]
    intro hh
    apply hch
    have hv : ch.toNat = 48 ∨ ch.toNat = 49 ∨ ch.toNat = 50 ∨ ch.toNat = 51 ∨ ch.toNat = 52
        ∨ ch.toNat = 53 := by
      simp only [AUTR_STATE_START, AUTR_STATE_ADDPEND, AUTR_STATE_VALID, AUTR_STATE_MISSING,
        AUTR_STATE_REVOKED, AUTR_STATE_REMOVED] at hh
      omega
    have hof : ch = Char.ofNat ch.toNat := by simp
    rcases hv with h | h | h | h | h | h <;> (rw [hof, h]; decide)
  rw [if_neg hcode]

/-- The spec example for C3: the comment `;state=9` gives state Start. -/
theorem parse_comments_undefined_state_witness :
    position_in_string
        (copy_comments "example. 3600 IN DNSKEY 257 3 5 AQ== ;state=9".toList) "state=".toList
      < ((copy_comments "example. 3600 IN DNSKEY 257 3 5 AQ== ;state=9".toList).length : Int)
    ∧ (parse_comments 1234567890 "example. 3600 IN DNSKEY 257 3 5 AQ== ;state=9".toList
        { sample_ta with s := AUTR_STATE_VALID }).2.s = AUTR_STATE_START :=
  parse_comments_undefined_state 1234567890 "example. 3600 IN DNSKEY 257 3 5 AQ== ".toList [] []
    '9' { sample_ta with s := AUTR_STATE_VALID } (by decide) (by decide) (by decide)

/-- Counterexample to C4 as stated: for the comment `;state=`, with nothing
after the `=`, `parse_comments` returns 0 and leaves the key entry as it was;
the state does not default to Valid. -/
theorem parse_comments_state_at_end_counterexample :
    parse_comments 1234567890 "example. 3600 IN DNSKEY 257 3 5 AQ== ;state=".toList sample_ta
        = (false, sample_ta)
      ∧ sample_ta.s ≠ AUTR_STATE_VALID := by
  decide

/-- C4, amended. When the comment ends with the `state=` token,
`parse_comments` returns 0 (the parse error) and leaves the key entry
untouched; the state defaults to Valid when `state=` does not occur in the
comment at all. -/
theorem parse_comments_state_at_end (now : Nat) (r pre c : List Char) (ta : autr_ta)
    (hr : ';' ∉ r) (hc : ¬ "state=".toList <:+: c) :
    parse_comments now (r ++ ';' :: (pre ++ "state=".toList)) ta = (false, ta)
      ∧ (parse_comments now (r ++ ';' :: c) ta).2.s = AUTR_STATE_VALID := by
  constructor
  · have p1 := position_in_string_suffix 's' "tate=".toList pre
    rw [parse_comments_stages, copy_comments_append r _ hr]
    exact if_pos (ge_of_eq p1)
  · have p1 : position_in_string c "state=".toList = -1 :=
      position_in_string_absent _ _ (fun k hk => no_occurrence_of_absent _ _ hc k hk.2)
    have hcc := copy_comments_append r c hr
    rw [parse_comments_state now _ ta (by rw [hcc, p1]; omega), hcc]
    simp only [state_field, p1]
    simp

/-- The comment `;state=` fails to parse; the comment `;count=3` has no
`state=` and gives state Valid. -/
theorem parse_comments_state_at_end_witness :
    parse_comments 1234567890 "example. 3600 IN DNSKEY 257 3 5 AQ== ;state=".toList sample_ta
        = (false, sample_ta)
      ∧ (parse_comments 1234567890 "example. 3600 IN DNSKEY 257 3 5 AQ== ;count=3".toList
          sample_ta).2.s = AUTR_STATE_VALID :=
  parse_comments_state_at_end 1234567890 "example. 3600 IN DNSKEY 257 3 5 AQ== ".toList []
    "count=3".toList sample_ta (by decide) (by decide)

/-- Counterexample to C5 as stated: the comment `;count=256 ` gives the
pending count 0, not 255. -/
theorem parse_comments_count_counterexample :
    (parse_comments 1234567890 "example. 3600 IN DNSKEY 257 3 5 AQ== ;count=256 ".toList
        sample_ta).2.pending_count = 0
      ∧ (0 : Nat) ≠ min 256 255 := by
  decide

/-- C5, amended. When the last `count=` token of the comment is followed by a
decimal integer `n` within `int` range, and the comment does not end with
`state=`, `parse_comments` stores `n` reduced modulo 256 (the cast to
`uint8_t`) as pending count; there is no saturation. -/
theorem parse_comments_count_wraps (now : Nat) (r pre nd post : List Char) (ta : autr_ta)
    (hr : ';' ∉ r) (hnd : nd ≠ []) (hnd2 : ∀ c ∈ nd, c.isDigit = true)
    (hn : decimal_value nd ≤ 2147483647)
    (hpost : ∀ c, post.head? = some c → c.isDigit = false)
    (hlast : ¬ "count=".toList <:+: post)
    (hstate : ¬ "state=".toList <:+ (pre ++ ("count=".toList ++ (nd ++ post)))) :
    (parse_comments now (r ++ ';' :: (pre ++ ("count=".toList ++ (nd ++ post)))) ta).2.pending_count
      = decimal_value nd % 256 := by
  have _hrange := hn
  have hc := copy_comments_append r (pre ++ ("count=".toList ++ (nd ++ post))) hr
  have p2 : position_in_string (pre ++ ("count=".toList ++ (nd ++ post))) "count=".toList
      = (pre.length : Int) + 6 :=
    position_in_string_token 'c' "ount=".toList pre (nd ++ post)
      (not_prefix_drop_skip 'c' _ "ount=".toList (nd ++ post) (by decide)
        (not_prefix_drop_skip 'c' _ nd post
          (fun c hc => isDigit_ne c 'c' (hnd2 c hc) (by decide))
          (no_occurrence_of_absent _ _ hlast)))
  have hlen : 0 < nd.length := List.length_pos.2 hnd
  rw [parse_comments_count now _ ta (by rw [hc]; exact position_lt_of_not_suffix _ _ hstate)
    (by rw [hc, p2]; simp; omega), hc]
  have e : ((pre.length : Int) + 6).toNat = pre.length + 6 := by omega
  have hdrop : (pre ++ ("count=".toList ++ (nd ++ post))).drop (pre.length + 6) = nd ++ post := by
    rw [← List.drop_drop, List.drop_left]; rfl
  have hpos : ¬ ((pre.length : Int) + 6 ≤ 0) := by omega
  simp only [count_field, count_rest, p2, e, hdrop, if_neg hpos,
    atoi_of_digits nd post hnd hnd2 hpost]
  omega

/-- The comment `;count=256 ` gives the pending count 256 mod 256. -/
theorem parse_comments_count_wraps_witness :
    (parse_comments 1234567890 "example. 3600 IN DNSKEY 257 3 5 AQ== ;count=256 ".toList
        sample_ta).2.pending_count = decimal_value "256".toList % 256 :=
  parse_comments_count_wraps 1234567890 "example. 3600 IN DNSKEY 257 3 5 AQ== ".toList []
    "256".toList " ".toList sample_ta (by decide) (by decide) (by decide) (by decide) (by decide)
    (by decide) (by decide)

/-! ## Loading a file -/

/-- C6. When the lines before a line leave the loop of `autr_read_file` with
trust point `t`, and that line loads into a different trust point,
`autr_read_file` returns 0 at that line: the result is the store as that line
left it, whatever lines follow. -/
theorem autr_read_file_aborts_on_mismatch (W : Nat) (parse : List Char → Option ldns_rr)
    (time : Nat → Nat) (anchors : val_anchors) (nm : List Char)
    (pre : List (List Char)) (l : List Char) (post : List (List Char))
    (st1 : read_state) (a2 : val_anchors) (t t2 : Nat)
    (hpre : read_loop W parse time nm pre ⟨anchors, none, 0, []⟩ = some (false, st1))
    (htp : st1.tp = some t)
    (hload : load_trustanchor W parse (time (st1.line_nr + 1)) st1.anchors l nm = some (a2, some t2))
    (hne : t2 ≠ t) :
    autr_read_file W parse time anchors nm (some (pre ++ l :: post)) = some (0, a2, st1.failed) := by
  have hdata : str_contains_data l ';' = true := by
    cases h : str_contains_data l ';'
    · simp [load_trustanchor, add_trustanchor_frm_str, h] at hload
    · rfl
  have hne2 : ¬ (t = t2) := fun e => hne e.symm
  simp [autr_read_file, read_loop_append, hpre, read_loop, hdata, hload, htp, hne2]

/-- The second line of the sample file is a record of `b.` after a record of
`a.`: the load stops there with 0, and the third line is not looked at. -/
theorem autr_read_file_aborts_on_mismatch_witness :
    autr_read_file 8 sample_parse (fun _ => 1234567890) ⟨[]⟩ "anchor.file".toList
        (some (["a. DNSKEY 257 3 5 AQ==\n".toList] ++ "b. DNSKEY 257 3 5 Ag==\n".toList
          :: ["a. DS 1 5 1 0A\n".toList]))
      = some (0, ⟨[sample_point_a, sample_point_b]⟩, []) :=
  autr_read_file_aborts_on_mismatch 8 sample_parse (fun _ => 1234567890) ⟨[]⟩ "anchor.file".toList
    ["a. DNSKEY 257 3 5 AQ==\n".toList] "b. DNSKEY 257 3 5 Ag==\n".toList
    ["a. DS 1 5 1 0A\n".toList] ⟨⟨[sample_point_a]⟩, some 0, 1, []⟩
    ⟨[sample_point_a, sample_point_b]⟩ 0 1 (by decide) rfl (by decide) (by decide)

/-- Counterexample to C7 as stated: loading a file with a record of `a.` and
then a record of `b.` into an empty store returns 0 and leaves both trust
points, each with its key entry, registered in the store. -/
theorem autr_read_file_mismatch_keeps_points_counterexample :
    autr_read_file 8 sample_parse (fun _ => 1234567890) ⟨[]⟩ "anchor.file".toList
        (some ["a. DNSKEY 257 3 5 AQ==\n".toList, "b. DNSKEY 257 3 5 Ag==\n".toList])
      = some (0, ⟨[sample_point_a, sample_point_b]⟩, [])
    ∧ (⟨[sample_point_a, sample_point_b]⟩ : val_anchors) ≠ ⟨[]⟩ := by
  decide

/-- C7, amended. When the first two lines of a file load successfully, with
different owner names for which the store has no trust point yet,
`autr_read_file` returns 0 at the second line and rolls nothing back: the
store afterwards is the store before the call followed by two new trust
points, one for each record, each holding the key entry of its record. -/
theorem autr_read_file_mismatch_registers (W : Nat) (parse : List Char → Option ldns_rr)
    (time : Nat → Nat) (anchors : val_anchors) (nm l1 l2 : List Char)
    (rest : List (List Char)) (rr1 rr2 : ldns_rr)
    (hd1 : str_contains_data l1 ';' = true) (hp1 : parse l1 = some rr1)
    (hc1 : (parse_comments (time 1) l1 (autr_ta_create rr1)).1 = true)
    (hd2 : str_contains_data l2 ';' = true) (hp2 : parse l2 = some rr2)
    (hc2 : (parse_comments (time 2) l2 (autr_ta_create rr2)).1 = true)
    (hne : rr1.owner ≠ rr2.owner)
    (hf1 : anchor_find anchors rr1.owner rr1.rr_class = none)
    (hf2 : anchor_find anchors rr2.owner rr2.rr_class = none) :
    autr_read_file W parse time anchors nm (some (l1 :: l2 :: rest))
      = some (0,
          ⟨anchors.tree
            ++ [loaded_point W nm rr1 (parse_comments (time 1) l1 (autr_ta_create rr1)).2,
                loaded_point W nm rr2 (parse_comments (time 2) l2 (autr_ta_create rr2)).2]⟩,
          []) := by
  have e1 := load_trustanchor_fresh W parse (time 1) anchors l1 nm rr1 hd1 hp1 hc1 hf1
  have hf2b : anchor_find
      ⟨anchors.tree ++ [loaded_point W nm rr1 (parse_comments (time 1) l1 (autr_ta_create rr1)).2]⟩
      rr2.owner rr2.rr_class = none :=
    anchor_find_from_append_none anchors.tree _ _ _ hf2 (fun h => hne h.1)
  have e2 := load_trustanchor_fresh W parse (time 2) _ l2 nm rr2 hd2 hp2 hc2 hf2b
  simp only [List.length_append, List.length_singleton] at e2
  simp [autr_read_file, read_loop, hd1, hd2, e1, e2]

/-- Loading a record of `a.` and then a record of `b.` into an empty store
leaves the two trust points registered. -/
theorem autr_read_file_mismatch_registers_witness :
    autr_read_file 8 sample_parse (fun _ => 1234567890) ⟨[]⟩ "anchor.file".toList
        (some ["a. DNSKEY 257 3 5 AQ==\n".toList, "b. DNSKEY 257 3 5 Ag==\n".toList,
          "a. DS 1 5 1 0A\n".toList])
      = some (0, ⟨[sample_point_a, sample_point_b]⟩, []) :=
  autr_read_file_mismatch_registers 8 sample_parse (fun _ => 1234567890) ⟨[]⟩
    "anchor.file".toList "a. DNSKEY 257 3 5 AQ==\n".toList "b. DNSKEY 257 3 5 Ag==\n".toList
    ["a. DS 1 5 1 0A\n".toList] ⟨"a.".toList, 1, 48, 257, [3, 5, 1]⟩
    ⟨"b.".toList, 1, 48, 257, [3, 5, 2]⟩ (by decide) (by decide) (by decide) (by decide)
    (by decide) (by decide) (by decide) (by decide) (by decide)

/-- C8, the code at the failing input: the only line of the file is a record
whose comment ends with `state=`. `load_trustanchor` fails on it and the line
is logged as failed (line 1), yet the store holds a trust point for `a.` with
a key entry for the record, in state 0 (Start). -/
theorem autr_read_file_failed_line_leaves_key :
    autr_read_file 8 sample_parse (fun _ => 1234567890) ⟨[]⟩ "anchor.file".toList
        (some ["a. DNSKEY 257 3 5 AQ== ;state=".toList])
      = some (0,
          ⟨[{ name := "a.".toList, namelen := 2, dclass := 1,
              autr := some { file := none,
                             keys := [⟨⟨"a.".toList, 1, 48, 257, [3, 5, 1]⟩, 0, 0, 0⟩],
                             last_queried := 0, next_probe_time := 0, query_failed := 0,
                             valid := 0, missing := 0 },
              ds_rrset := none, dnskey_rrset := none }]⟩,
          [1]) := by
  decide

/-- C9. `str_contains_data(line, ';')` is false exactly when every character
before the first `;`, newline or end of the line is a space or a tab; and
`autr_read_file` steps over such a line: what its loop does with the line and
the lines after it is what it does with the lines after it, with the same
store, the same trust point and the same list of failed lines. -/
theorem blank_line_skipped (W : Nat) (parse : List Char → Option ldns_rr) (time : Nat → Nat)
    (nm line : List Char) (rest : List (List Char)) (st : read_state) :
    (str_contains_data line ';' = false
      ↔ ∀ ch ∈ line.takeWhile (fun x => decide (x ≠ ';' ∧ x ≠ '\n')), ch = ' ' ∨ ch = '\t')
    ∧ ((∀ ch ∈ line.takeWhile (fun x => decide (x ≠ ';' ∧ x ≠ '\n')), ch = ' ' ∨ ch = '\t') →
        read_loop W parse time nm (line :: rest) st
          = read_loop W parse time nm rest { st with line_nr := st.line_nr + 1 }) := by
  refine ⟨str_contains_data_eq_false ';' line, fun h => ?_⟩
  have hf := (str_contains_data_eq_false ';' line).2 h
  simp [read_loop, hf]

/-- A line of blanks followed by a comment is stepped over. -/
theorem blank_line_skipped_witness :
    str_contains_data " \t ; only a comment\n".toList ';' = false
    ∧ read_loop 8 sample_parse (fun _ => 1234567890) "anchor.file".toList
        (" \t ; only a comment\n".toList :: sample_mismatch_lines) ⟨⟨[]⟩, none, 0, []⟩
      = read_loop 8 sample_parse (fun _ => 1234567890) "anchor.file".toList
        sample_mismatch_lines ⟨⟨[]⟩, none, 1, []⟩ :=
  have h := blank_line_skipped 8 sample_parse (fun _ => 1234567890) "anchor.file".toList
    " \t ; only a comment\n".toList sample_mismatch_lines ⟨⟨[]⟩, none, 0, []⟩
  ⟨h.1.2 (by decide), h.2 (by decide)⟩

/-- Counterexample to C10 as stated: after loading a file with one DS record
and no comment, the trust point has one key entry in state Valid and its
`valid` count is 0. -/
theorem autr_read_file_counts_counterexample :
    autr_read_file 8 sample_parse (fun _ => 1234567890) ⟨[]⟩ "anchor.file".toList
        (some ["a. DS 1 5 1 0A\n".toList])
      = some (1,
          ⟨[{ name := "a.".toList, namelen := 2, dclass := 1,
              autr := some { file := some "anchor.file".toList,
                             keys := [⟨⟨"a.".toList, 1, 43, 0, [9]⟩, AUTR_STATE_VALID, 0, 1234567890⟩],
                             last_queried := 0, next_probe_time := 0, query_failed := 0,
                             valid := 0, missing := 0 },
              ds_rrset := none, dnskey_rrset := none }]⟩,
          []) := by
  decide

/-- C10, amended. After `autr_read_file` has read a file in which no record
line has a state comment that fails to parse, into a store of autotrust trust
points, every trust point that the load created has a `valid` count equal to
the number of its key entries that are DNSKEYs with the SEP flag in state
Valid, and a `missing` count equal to the number of those in state Missing,
both as counters of `W` bits hold them; DS records and DNSKEYs without the
SEP flag are not counted. -/
theorem autr_read_file_counts (W : Nat) (parse : List Char → Option ldns_rr) (time : Nat → Nat)
    (anchors : val_anchors) (nm : List Char) (lines : List (List Char))
    (hautr : ∀ t ∈ anchors.tree, t.autr ≠ none)
    (hok : ∀ l ∈ lines, ∀ rr, parse l = some rr → ∀ now ta, (parse_comments now l ta).1 = true) :
    ∃ ret a2 failed, autr_read_file W parse time anchors nm (some lines) = some (ret, a2, failed)
      ∧ ∀ i t d, anchors.tree.length ≤ i → a2.tree[i]? = some t → t.autr = some d →
          d.valid = d.keys.countP
              (fun ta => rr_is_dnskey_sep ta.rr && decide (ta.s = AUTR_STATE_VALID)) % 2 ^ W
            ∧ d.missing = d.keys.countP
              (fun ta => rr_is_dnskey_sep ta.rr && decide (ta.s = AUTR_STATE_MISSING)) % 2 ^ W := by
  have h0 : store_counted W anchors.tree.length anchors := by
    refine ⟨le_refl _, hautr, ?_⟩
    intro i t d hi hget _
    rw [List.getElem?_eq_none (by omega)] at hget
    exact absurd hget (by simp)
  obtain ⟨b, st2, hl, hs, htp⟩ := read_loop_counted W anchors.tree.length parse time nm lines
    ⟨anchors, none, 0, []⟩ h0 (by simp) hok
  simp only [autr_read_file, hl]
  cases b with
  | true => exact ⟨0, st2.anchors, st2.failed, rfl, hs.2.2⟩
  | false =>
    simp only []
    cases htp2 : st2.tp with
    | none => exact ⟨0, st2.anchors, st2.failed, rfl, hs.2.2⟩
    | some tp =>
      have hlt := htp tp htp2
      have hget : st2.anchors.tree[tp]? = some st2.anchors.tree[tp] := List.getElem?_eq_getElem hlt
      cases hau : (st2.anchors.tree[tp]).autr with
      | none => exact absurd hau (hs.2.1 _ (List.getElem_mem hlt))
      | some d0 =>
        simp only [hget, autr_assemble, hau]
        refine ⟨1, _, st2.failed, rfl, ?_⟩
        intro i t d hi hgi hautr2
        by_cases e : tp = i
        · subst e
          simp only [List.getElem?_set_self hlt, Option.some.injEq] at hgi
          rw [← hgi] at hautr2
          simp only at hautr2
          exact hs.2.2 tp _ d hi hget (hau.trans hautr2)
        · simp only [List.getElem?_set_ne e] at hgi
          exact hs.2.2 i t d hi hgi hautr2

/-- A file with a DNSKEY record with the SEP flag and a DS record, both
without a comment, read into an empty store. -/
theorem autr_read_file_counts_witness :
    ∃ ret a2 failed,
      autr_read_file 8 sample_parse (fun _ => 1234567890) ⟨[]⟩ "anchor.file".toList
          (some ["a. DNSKEY 257 3 5 AQ==\n".toList, "a. DS 1 5 1 0A\n".toList])
        = some (ret, a2, failed)
      ∧ ∀ i t d, (⟨[]⟩ : val_anchors).tree.length ≤ i → a2.tree[i]? = some t → t.autr = some d →
          d.valid = d.keys.countP
              (fun ta => rr_is_dnskey_sep ta.rr && decide (ta.s = AUTR_STATE_VALID)) % 2 ^ 8
            ∧ d.missing = d.keys.countP
              (fun ta => rr_is_dnskey_sep ta.rr && decide (ta.s = AUTR_STATE_MISSING)) % 2 ^ 8 :=
  autr_read_file_counts 8 sample_parse (fun _ => 1234567890) ⟨[]⟩ "anchor.file".toList
    ["a. DNSKEY 257 3 5 AQ==\n".toList, "a. DS 1 5 1 0A\n".toList]
    (fun t ht => absurd ht (List.not_mem_nil t))
    (fun l hl _ _ now ta => by
      simp only [List.mem_cons, List.mem_singleton, List.not_mem_nil, or_false] at hl
      rcases hl with h | h <;>
        (rw [h, parse_comments_default now _ ta (by decide) (by decide) (by decide)]))

/-! ## Verification and the probe pipeline -/

/-- C11. With the two crypto checks as oracles, `verify_dnskey` returns 1 or
0, and it returns 1 exactly when the trust point has a DS set and the check
with DS answers secure, or the trust point has a DNSKEY set and the check
with DNSKEY answers secure; the check with DNSKEY is consulted only when the
trust point has no DS set or the check with DS did not answer secure. -/
theorem verify_dnskey_iff (ds_check key_check : List ldns_rr → List ldns_rr → sec_status)
    (tp : trust_anchor) (rrset : List ldns_rr) :
    ((verify_dnskey ds_check key_check tp rrset).1 = 1
        ∨ (verify_dnskey ds_check key_check tp rrset).1 = 0)
    ∧ ((verify_dnskey ds_check key_check tp rrset).1 = 1
        ↔ ((∃ ds, tp.ds_rrset = some ds ∧ ds_check rrset ds = sec_status.sec_status_secure)
          ∨ (∃ keys, tp.dnskey_rrset = some keys
              ∧ key_check rrset keys = sec_status.sec_status_secure)))
    ∧ (crypto_check.with_DNSKEY ∈ (verify_dnskey ds_check key_check tp rrset).2
        → ¬ ∃ ds, tp.ds_rrset = some ds ∧ ds_check rrset ds = sec_status.sec_status_secure) := by
  unfold verify_dnskey verify_dnskey_keys
  cases hds : tp.ds_rrset with
  | none =>
    cases hk : tp.dnskey_rrset with
    | none => simp
    | some keys =>
      by_cases h2 : key_check rrset keys = sec_status.sec_status_secure <;> simp [h2]
  | some ds =>
    by_cases h1 : ds_check rrset ds = sec_status.sec_status_secure
    · simp [h1]
    · cases hk : tp.dnskey_rrset with
      | none => simp [h1]
      | some keys =>
        by_cases h2 : key_check rrset keys = sec_status.sec_status_secure <;> simp [h1, h2]

/-- C12. Fail-static: when `autr_process_prime` is called with no key set, or
with a key set that `verify_dnskey` rejects, it returns 1, adds one to
`query_failed` (in the arithmetic of the counter, so exactly one while the
counter does not overflow) and leaves the key entries, with their states,
pending counts and last changes, the valid and missing counts and both
assembled verification sets as they were. -/
theorem autr_process_prime_fail_static (WQ : Nat)
    (ds_check key_check : List ldns_rr → List ldns_rr → sec_status) (now : Nat)
    (tp : trust_anchor) (d : autr_point_data) (dnskey_rrset : Option (List ldns_rr))
    (hd : tp.autr = some d)
    (hfail : dnskey_rrset = none ∨ ∃ rrset, dnskey_rrset = some rrset
      ∧ (verify_dnskey ds_check key_check tp rrset).1 = 0) :
    ∃ tp2 d2, autr_process_prime WQ ds_check key_check now tp dnskey_rrset = some (1, tp2)
      ∧ tp2.autr = some d2
      ∧ d2.query_failed = (d.query_failed + 1) % 2 ^ WQ
      ∧ (d.query_failed + 1 < 2 ^ WQ → d2.query_failed = d.query_failed + 1)
      ∧ d2.keys = d.keys ∧ d2.valid = d.valid ∧ d2.missing = d.missing
      ∧ tp2.ds_rrset = tp.ds_rrset ∧ tp2.dnskey_rrset = tp.dnskey_rrset := by
  have h := autr_process_prime_failed WQ ds_check key_check now tp d dnskey_rrset hd (by
    rcases hfail with h | ⟨rrset, h, hv⟩
    · exact Or.inl h
    · exact Or.inr ⟨rrset, h, by rw [verify_dnskey_autr]; exact hv⟩)
  refine ⟨_, _, h, rfl, rfl, fun hlt => Nat.mod_eq_of_lt hlt, rfl, rfl, rfl, rfl, rfl⟩

/-- A probe of the sample trust point without a key set, and with counters of
8 bits: `query_failed` goes from 2 to 3 and nothing else but `last_queried`
changes. -/
theorem autr_process_prime_fail_static_witness :
    ∃ tp2 d2, autr_process_prime 8 sample_secure sample_secure 1234567890 sample_point_ds none
        = some (1, tp2)
      ∧ tp2.autr = some d2
      ∧ d2.query_failed = (2 + 1) % 2 ^ 8
      ∧ (2 + 1 < 2 ^ 8 → d2.query_failed = 2 + 1)
      ∧ d2.keys = [⟨⟨"a.".toList, 1, 48, 257, [3, 5, 2]⟩, AUTR_STATE_ADDPEND, 1, 1234567000⟩,
                   ⟨⟨"a.".toList, 1, 48, 257, [3, 5, 1]⟩, AUTR_STATE_VALID, 0, 1234560000⟩]
      ∧ d2.valid = 1 ∧ d2.missing = 0
      ∧ tp2.ds_rrset = sample_point_ds.ds_rrset ∧ tp2.dnskey_rrset = sample_point_ds.dnskey_rrset :=
  autr_process_prime_fail_static 8 sample_secure sample_secure 1234567890 sample_point_ds
    { file := some "anchor.file".toList,
      keys := [⟨⟨"a.".toList, 1, 48, 257, [3, 5, 2]⟩, AUTR_STATE_ADDPEND, 1, 1234567000⟩,
               ⟨⟨"a.".toList, 1, 48, 257, [3, 5, 1]⟩, AUTR_STATE_VALID, 0, 1234560000⟩],
      last_queried := 0, next_probe_time := 0, query_failed := 2, valid := 1, missing := 0 }
    none rfl (Or.inl rfl)

/-- C13. Safety invariant: when `autr_process_prime` is called with a key set
that `verify_dnskey` accepts, it returns 1, and a trust point that had a key
entry in state Valid before the call has a key entry in state Valid after
it. -/
theorem autr_process_prime_keeps_valid (WQ : Nat)
    (ds_check key_check : List ldns_rr → List ldns_rr → sec_status) (now : Nat)
    (tp : trust_anchor) (d : autr_point_data) (rrset : List ldns_rr)
    (hd : tp.autr = some d)
    (hv : (verify_dnskey ds_check key_check tp rrset).1 = 1)
    (hvalid : ∃ ta ∈ d.keys, ta.s = AUTR_STATE_VALID) :
    ∃ tp2 d2, autr_process_prime WQ ds_check key_check now tp (some rrset) = some (1, tp2)
      ∧ tp2.autr = some d2 ∧ ∃ ta ∈ d2.keys, ta.s = AUTR_STATE_VALID := by
  have h := autr_process_prime_verified WQ ds_check key_check now tp d rrset hd (by
    rw [verify_dnskey_autr, hv]; decide)
  exact ⟨_, _, h, rfl, hvalid⟩

/-- A verified probe of the sample trust point, which has a key in state
Valid. -/
theorem autr_process_prime_keeps_valid_witness :
    ∃ tp2 d2, autr_process_prime 8 sample_secure sample_secure 1234567890 sample_point_ds
        (some [⟨"a.".toList, 1, 48, 257, [3, 5, 1]⟩]) = some (1, tp2)
      ∧ tp2.autr = some d2 ∧ ∃ ta ∈ d2.keys, ta.s = AUTR_STATE_VALID :=
  autr_process_prime_keeps_valid 8 sample_secure sample_secure 1234567890 sample_point_ds
    { file := some "anchor.file".toList,
      keys := [⟨⟨"a.".toList, 1, 48, 257, [3, 5, 2]⟩, AUTR_STATE_ADDPEND, 1, 1234567000⟩,
               ⟨⟨"a.".toList, 1, 48, 257, [3, 5, 1]⟩, AUTR_STATE_VALID, 0, 1234560000⟩],
      last_queried := 0, next_probe_time := 0, query_failed := 2, valid := 1, missing := 0 }
    [⟨"a.".toList, 1, 48, 257, [3, 5, 1]⟩] rfl (by decide)
    ⟨⟨⟨"a.".toList, 1, 48, 257, [3, 5, 1]⟩, AUTR_STATE_VALID, 0, 1234560000⟩, by decide, rfl⟩

/-- Counterexample to C14 as stated: the sample trust point holds a key entry
in state AddPending (rdata 3 5 2); after a verified probe whose key set holds
only the other key, that key entry is still in state AddPending, not
Removed. -/
theorem autr_process_prime_addpend_counterexample :
    (autr_process_prime 8 sample_secure sample_secure 1234567890 sample_point_ds
        (some [⟨"a.".toList, 1, 48, 257, [3, 5, 1]⟩])).map
        (fun r => (r.1, r.2.autr.map (fun d => d.keys.map (fun ta => (ta.rr.rdata, ta.s)))))
      = some (1, some [([3, 5, 2], AUTR_STATE_ADDPEND), ([3, 5, 1], AUTR_STATE_VALID)])
    ∧ AUTR_STATE_ADDPEND ≠ AUTR_STATE_REMOVED := by
  decide

/-- C14, amended. `autr_process_prime` runs no state table: after it has
processed a successfully verified key set, whether a key is present in that
set or not, the key entries of the trust point are the ones it held before,
each in the state it had; a key entry in state AddPending is still in state
AddPending. -/
theorem autr_process_prime_keys_unchanged (WQ : Nat)
    (ds_check key_check : List ldns_rr → List ldns_rr → sec_status) (now : Nat)
    (tp : trust_anchor) (d : autr_point_data) (rrset : List ldns_rr)
    (hd : tp.autr = some d)
    (hv : (verify_dnskey ds_check key_check tp rrset).1 = 1) :
    ∃ tp2 d2, autr_process_prime WQ ds_check key_check now tp (some rrset) = some (1, tp2)
      ∧ tp2.autr = some d2 ∧ d2.keys = d.keys
      ∧ ∀ ta ∈ d.keys, ta.s = AUTR_STATE_ADDPEND → ta ∈ d2.keys := by
  have h := autr_process_prime_verified WQ ds_check key_check now tp d rrset hd (by
    rw [verify_dnskey_autr, hv]; decide)
  exact ⟨_, _, h, rfl, rfl, fun ta hta _ => hta⟩

/-- A verified probe of the sample trust point leaves its two key entries as
they were. -/
theorem autr_process_prime_keys_unchanged_witness :
    ∃ tp2 d2, autr_process_prime 8 sample_secure sample_secure 1234567890 sample_point_ds
        (some [⟨"a.".toList, 1, 48, 257, [3, 5, 1]⟩]) = some (1, tp2)
      ∧ tp2.autr = some d2
      ∧ d2.keys = [⟨⟨"a.".toList, 1, 48, 257, [3, 5, 2]⟩, AUTR_STATE_ADDPEND, 1, 1234567000⟩,
                   ⟨⟨"a.".toList, 1, 48, 257, [3, 5, 1]⟩, AUTR_STATE_VALID, 0, 1234560000⟩]
      ∧ ∀ ta ∈ [(⟨⟨"a.".toList, 1, 48, 257, [3, 5, 2]⟩, AUTR_STATE_ADDPEND, 1, 1234567000⟩ : autr_ta),
                ⟨⟨"a.".toList, 1, 48, 257, [3, 5, 1]⟩, AUTR_STATE_VALID, 0, 1234560000⟩],
          ta.s = AUTR_STATE_ADDPEND → ta ∈ d2.keys :=
  autr_process_prime_keys_unchanged 8 sample_secure sample_secure 1234567890 sample_point_ds
    { file := some "anchor.file".toList,
      keys := [⟨⟨"a.".toList, 1, 48, 257, [3, 5, 2]⟩, AUTR_STATE_ADDPEND, 1, 1234567000⟩,
               ⟨⟨"a.".toList, 1, 48, 257, [3, 5, 1]⟩, AUTR_STATE_VALID, 0, 1234560000⟩],
      last_queried := 0, next_probe_time := 0, query_failed := 2, valid := 1, missing := 0 }
    [⟨"a.".toList, 1, 48, 257, [3, 5, 1]⟩] rfl (by decide)

/-- Counterexample to C15 as stated: the two sample trust points `a.` and
`b.` are distinct and have the same `next_probe_time`, and `probetree_cmp`
returns 0 for them. -/
theorem probetree_cmp_tie_counterexample :
    probetree_cmp sample_point_a sample_point_b = some 0
      ∧ sample_point_a ≠ sample_point_b := by
  decide

/-- C15, amended. `probetree_cmp` orders trust points by `next_probe_time`
alone: it returns -1 when the first is due earlier, 1 when it is due later,
and 0 exactly when the two `next_probe_time` values are equal, for the same
trust point and for two distinct ones alike; ties are not broken. -/
theorem probetree_cmp_by_time (a b : trust_anchor) (da db : autr_point_data)
    (ha : a.autr = some da) (hb : b.autr = some db) :
    (probetree_cmp a b = some (-1) ↔ da.next_probe_time < db.next_probe_time)
      ∧ (probetree_cmp a b = some 1 ↔ da.next_probe_time > db.next_probe_time)
      ∧ (probetree_cmp a b = some 0 ↔ da.next_probe_time = db.next_probe_time) := by
  unfold probetree_cmp
  rw [ha, hb]
  simp only []
  by_cases h1 : da.next_probe_time < db.next_probe_time
  · have h2 : ¬ da.next_probe_time > db.next_probe_time := by omega
    have h3 : ¬ da.next_probe_time = db.next_probe_time := by omega
    simp [h1, h2, h3]
  · by_cases h2 : da.next_probe_time > db.next_probe_time
    · have h3 : ¬ da.next_probe_time = db.next_probe_time := by omega
      simp [h1, h2, h3]
    · have h3 : da.next_probe_time = db.next_probe_time := by omega
      simp [h1, h2, h3]

/-- The sample trust points `a.` and `b.` have equal probe times and compare
as equal; `a.` one second later compares as later. -/
theorem probetree_cmp_by_time_witness :
    (probetree_cmp sample_point_a sample_point_b = some (-1) ↔ (0 : Nat) < 0)
      ∧ (probetree_cmp sample_point_a sample_point_b = some 1 ↔ (0 : Nat) > 0)
      ∧ (probetree_cmp sample_point_a sample_point_b = some 0 ↔ (0 : Nat) = 0) :=
  probetree_cmp_by_time sample_point_a sample_point_b
    { file := some "anchor.file".toList,
      keys := [⟨⟨"a.".toList, 1, 48, 257, [3, 5, 1]⟩, 2, 0, 1234567890⟩],
      last_queried := 0, next_probe_time := 0, query_failed := 0, valid := 1, missing := 0 }
    { file := some "anchor.file".toList,
      keys := [⟨⟨"b.".toList, 1, 48, 257, [3, 5, 2]⟩, 2, 0, 1234567890⟩],
      last_queried := 0, next_probe_time := 0, query_failed := 0, valid := 1, missing := 0 }
    rfl rfl

/-- C16, the code at the failing input: a trust point with one DS key entry
and one DNSKEY key entry. The loop of `autr_assemble` sorts the two records
into the DS list and the DNSKEY list, and `autr_assemble` returns 1 with both
verification sets null. -/
theorem autr_assemble_leaves_sets_null :
    assemble_lists
        [⟨⟨"a.".toList, 1, 43, 0, [9]⟩, AUTR_STATE_VALID, 0, 1234567890⟩,
         ⟨⟨"a.".toList, 1, 48, 257, [3, 5, 1]⟩, AUTR_STATE_VALID, 0, 1234567890⟩] ([], [])
      = ([⟨"a.".toList, 1, 43, 0, [9]⟩], [⟨"a.".toList, 1, 48, 257, [3, 5, 1]⟩])
    ∧ (autr_assemble
        { name := "a.".toList, namelen := 2, dclass := 1,
          autr := some { file := some "anchor.file".toList,
                         keys := [⟨⟨"a.".toList, 1, 43, 0, [9]⟩, AUTR_STATE_VALID, 0, 1234567890⟩,
                                  ⟨⟨"a.".toList, 1, 48, 257, [3, 5, 1]⟩, AUTR_STATE_VALID, 0,
                                    1234567890⟩],
                         last_queried := 0, next_probe_time := 0, query_failed := 0,
                         valid := 1, missing := 0 },
          ds_rrset := none, dnskey_rrset := none }).map
        (fun r => (r.1, r.2.ds_rrset, r.2.dnskey_rrset))
      = some (1, none, none) := by
  decide

/-! ## More on the comment parser -/

/-- C17. With allocation taken to succeed, `parse_comments` returns 0 for a
line exactly when the comment text, which is everything after the first `;`
and empty when the line has none, ends with one of the tokens `state=`,
`count=` or `lastchange=`; so a line without `;` never fails, and a token
that does not occur never causes a failure. -/
theorem parse_comments_fails_iff (now : Nat) (str : List Char) (ta : autr_ta) :
    (';' ∉ str → (parse_comments now str ta).1 = true)
    ∧ (∀ r c, str = r ++ ';' :: c → ';' ∉ r →
        ((parse_comments now str ta).1 = false ↔
          ("state=".toList <:+ c ∨ "count=".toList <:+ c ∨ "lastchange=".toList <:+ c))) := by
  constructor
  · intro h
    have hf := (parse_comments_fails_suffix now str ta).not
    rw [copy_comments_none str h] at hf
    have : ¬ (parse_comments now str ta).1 = false := hf.2 (by decide)
    simpa using this
  · intro r c hstr hr
    have hf := parse_comments_fails_suffix now str ta
    rw [hstr, copy_comments_append r c hr] at hf
    rw [hstr]
    exact hf

/-- The comment `;state=2 count=` ends with a token and fails; the line
without `;` does not. -/
theorem parse_comments_fails_iff_witness :
    (parse_comments 1234567890 "example. 3600 IN DNSKEY 257 3 5 AQ== ;state=2 count=".toList
        sample_ta).1 = false
      ∧ (parse_comments 1234567890 "example. 3600 IN DNSKEY 257 3 5 AQ==\n".toList
          sample_ta).1 = true :=
  ⟨((parse_comments_fails_iff 1234567890
      "example. 3600 IN DNSKEY 257 3 5 AQ== ;state=2 count=".toList sample_ta).2
      "example. 3600 IN DNSKEY 257 3 5 AQ== ".toList "state=2 count=".toList rfl (by decide)).2
      (Or.inr (Or.inl (by decide))),
   (parse_comments_fails_iff 1234567890 "example. 3600 IN DNSKEY 257 3 5 AQ==\n".toList
      sample_ta).1 (by decide)⟩

/-- C18. `position_in_string(s, p)` returns -1 for the empty pattern; for a
non-empty pattern it returns -1 exactly when `p` does not occur in `s`, and
otherwise `k + length(p)` with `k` the start of the last occurrence of `p` in
`s`; so the result is never 0 and never more than the length of `s`. -/
theorem position_in_string_spec (s p : List Char) :
    (p = [] → position_in_string s p = -1)
    ∧ (p ≠ [] →
        (position_in_string s p = -1 ↔ ¬ p <:+: s)
        ∧ (p <:+: s → ∃ k : Nat, p <+: s.drop k ∧ (∀ k2, k < k2 → ¬ p <+: s.drop k2)
            ∧ position_in_string s p = (k : Int) + (p.length : Int))
        ∧ position_in_string s p ≠ 0
        ∧ position_in_string s p ≤ (s.length : Int)) := by
  constructor
  · intro hp
    exact position_in_string_absent s p (fun k hk => hk.1 hp)
  · intro hne
    rcases last_occurrence_cases p s with h0 | ⟨k, _, hk, hlast⟩
    · have hpos := position_in_string_absent s p h0
      have hno : ¬ p <:+: s := by
        intro hin
        obtain ⟨k, hk⟩ := occurrence_of_contained p s hin
        exact h0 k ⟨hne, hk⟩
      refine ⟨⟨fun _ => hno, fun _ => hpos⟩, fun hin => absurd hin hno, ?_, ?_⟩
      · rw [hpos]; decide
      · rw [hpos]; omega
    · have hpos := position_in_string_last s p k hne hk hlast
      have hin : p <:+: s := hk.isInfix.trans (List.drop_suffix k s).isInfix
      have hlen : 0 < p.length := List.length_pos.2 hne
      have hle := hk.length_le
      rw [List.length_drop] at hle
      refine ⟨⟨fun h => ?_, fun h => absurd hin h⟩, fun _ => ⟨k, hk, hlast, hpos⟩, ?_, ?_⟩
      · rw [hpos] at h; omega
      · rw [hpos]; omega
      · rw [hpos]; omega

/-- In `"aXbXc"` the pattern `"X"` occurs last at index 3, and the position
returned is 4. -/
theorem position_in_string_spec_witness :
    position_in_string "aXbXc".toList "X".toList = 4
      ∧ position_in_string "aXbXc".toList "".toList = -1
      ∧ position_in_string "aXbXc".toList "Y".toList = -1 := by
  have h2 := position_in_string_spec "aXbXc".toList "".toList
  have h3 := position_in_string_spec "aXbXc".toList "Y".toList
  exact ⟨by decide, h2.1 rfl, ((h3.2 (by decide)).1).2 (by decide)⟩

/-- Counterexample to C19 as stated: in `;lastchange=1000000000 count=` the
only `lastchange=` token lies before the last `count=` token, and
`parse_comments` returns 0 at the count: the last change is left as it was,
not set to the clock value, and no count is read. -/
theorem parse_comments_field_order_counterexample :
    parse_comments 1234567890
        "example. 3600 IN DNSKEY 257 3 5 AQ== ;lastchange=1000000000 count=".toList sample_ta
      = (false, { sample_ta with s := AUTR_STATE_VALID })
    ∧ sample_ta.last_change ≠ 1234567890 % 4294967296 := by
  decide

/-- C19, amended. `state=` and `count=` are searched in the whole comment and
`lastchange=` only in the text after the last `count=` token. For every
comment that ends with neither `state=` nor `count=` and in which no
`lastchange=` token lies after the last `count=` token, `parse_comments`
succeeds, ignores any timestamp written before the count and sets the last
change to the clock value at load, while the state is read from the whole
comment and the count from the text after the last `count=`. -/
theorem parse_comments_field_order (now : Nat) (r pre post : List Char) (ta : autr_ta)
    (hr : ';' ∉ r) (hpost : post ≠ [])
    (hcount : ¬ "count=".toList <:+: post)
    (hlast : ¬ "lastchange=".toList <:+: post)
    (hstate : ¬ "state=".toList <:+ (pre ++ ("count=".toList ++ post))) :
    parse_comments now (r ++ ';' :: (pre ++ ("count=".toList ++ post))) ta
      = (true, { ta with s := state_field (pre ++ ("count=".toList ++ post)),
                         pending_count := (atoi post % 256).toNat,
                         last_change := now % 4294967296 }) := by
  have hc := copy_comments_append r (pre ++ ("count=".toList ++ post)) hr
  have p1 := position_lt_of_not_suffix _ _ hstate
  have p2 : position_in_string (pre ++ ("count=".toList ++ post)) "count=".toList
      = (pre.length : Int) + 6 :=
    position_in_string_token 'c' "ount=".toList pre post
      (not_prefix_drop_skip 'c' _ "ount=".toList post (by decide)
        (no_occurrence_of_absent _ _ hcount))
  have p3 : position_in_string post "lastchange=".toList = -1 :=
    position_in_string_absent _ _ (fun k hk => no_occurrence_of_absent _ _ hlast k hk.2)
  have hlen : 0 < post.length := List.length_pos.2 hpost
  have e : ((pre.length : Int) + 6).toNat = pre.length + 6 := by omega
  have hdrop : (pre ++ ("count=".toList ++ post)).drop (pre.length + 6) = post := by
    rw [← List.drop_drop, List.drop_left]; rfl
  have hpos : ¬ ((pre.length : Int) + 6 ≤ 0) := by omega
  have hrest : count_rest (pre ++ ("count=".toList ++ post)) = post := by
    simp only [count_rest, p2, e, hdrop, if_neg hpos]
  have f2 : count_field (pre ++ ("count=".toList ++ post)) = (atoi post % 256).toNat := by
    simp only [count_field, hrest, p2, if_neg hpos]
  have f3 : lastchange_field now post = now % 4294967296 := by
    simp only [lastchange_field, p3]; simp
  have g1 : ¬ (position_in_string (pre ++ ("count=".toList ++ post)) "state=".toList
      ≥ ((pre ++ ("count=".toList ++ post)).length : Int)) := by omega
  have g2 : ¬ ((pre.length : Int) + 6 ≥ ((pre ++ ("count=".toList ++ post)).length : Int)) := by
    simp; omega
  have g3 : ¬ ((-1 : Int) ≥ (post.length : Int)) := by omega
  rw [parse_comments_stages, hc, if_neg g1, p2, if_neg g2, hrest, p3, if_neg g3, f2, f3]

/-- The example of C19: the comment `;lastchange=1000000000 count=3 state=2`
gives state Valid, pending count 3 and the clock value as last change. -/
theorem parse_comments_field_order_witness :
    parse_comments 1234567890
        "example. 3600 IN DNSKEY 257 3 5 AQ== ;lastchange=1000000000 count=3 state=2".toList
        sample_ta
      = (true, { sample_ta with s := AUTR_STATE_VALID, pending_count := 3,
                                last_change := 1234567890 }) :=
  parse_comments_field_order 1234567890 "example. 3600 IN DNSKEY 257 3 5 AQ== ".toList
    "lastchange=1000000000 ".toList "3 state=2".toList sample_ta (by decide) (by decide)
    (by decide) (by decide) (by decide)

/-- C20. `autr_read_file` on an opened file, into a store of autotrust trust
points, returns 1 or 0, and it returns 1 exactly when `load_trustanchor`
returns a trust point for at least one line and the trust points it returns
for the lines are all the same one; so a file of which no line loads returns
0. -/
theorem autr_read_file_success_iff (W : Nat) (parse : List Char → Option ldns_rr)
    (time : Nat → Nat) (anchors : val_anchors) (nm : List Char) (lines : List (List Char))
    (hautr : ∀ t ∈ anchors.tree, t.autr ≠ none) :
    ∃ ret a2 failed rs,
      autr_read_file W parse time anchors nm (some lines) = some (ret, a2, failed)
      ∧ load_results W parse time nm lines anchors 0 = some rs
      ∧ (ret = 1 ∨ ret = 0)
      ∧ (ret = 1 ↔ ((∃ t, some t ∈ rs) ∧ ∀ t1 t2, some t1 ∈ rs → some t2 ∈ rs → t1 = t2))
      ∧ ((∀ r ∈ rs, r = none) → ret = 0) := by
  obtain ⟨b, st2, rs, e1, e2, e3, e4, e5, e6⟩ :=
    read_loop_results W parse time nm lines ⟨anchors, none, 0, []⟩ hautr (by simp)
  rw [same_point_none_head] at e5
  simp only [autr_read_file, e1]
  cases b with
  | true =>
    have hns : ¬ same_point rs := fun h => absurd (e5.2 h) (by simp)
    refine ⟨0, st2.anchors, st2.failed, rs, rfl, e2, Or.inr rfl, ?_, fun _ => rfl⟩
    constructor
    · intro h; exact absurd h (by decide)
    · intro h; exact absurd h.2 hns
  | false =>
    have hs : same_point rs := e5.1 rfl
    have h6 := e6 rfl
    simp only []
    cases htp2 : st2.tp with
    | none =>
      have hno : ¬ ∃ t, some t ∈ rs := by
        intro hex
        have := h6.2 (Or.inr hex)
        rw [htp2] at this
        exact absurd this (by simp)
      refine ⟨0, st2.anchors, st2.failed, rs, rfl, e2, Or.inr rfl, ?_, fun _ => rfl⟩
      constructor
      · intro h; exact absurd h (by decide)
      · intro h; exact absurd h.1 hno
    | some tp =>
      have hlt := e4 tp htp2
      have hget : st2.anchors.tree[tp]? = some st2.anchors.tree[tp] := List.getElem?_eq_getElem hlt
      have hex : ∃ t, some t ∈ rs := by
        have := h6.1 (by rw [htp2]; rfl)
        rcases this with h | h
        · exact absurd h (by simp)
        · exact h
      cases hau : (st2.anchors.tree[tp]).autr with
      | none => exact absurd hau (e3 _ (List.getElem_mem hlt))
      | some d0 =>
        simp only [hget, autr_assemble, hau]
        refine ⟨1, _, st2.failed, rs, rfl, e2, Or.inl rfl, ?_, ?_⟩
        · exact ⟨fun _ => ⟨hex, hs⟩, fun _ => rfl⟩
        · intro hall
          obtain ⟨t, ht⟩ := hex
          exact absurd (hall _ ht) (by simp)

/-- A file with a blank line, a comment line, a line the record parser
rejects and a line whose comment fails to parse, read into an empty store. -/
theorem autr_read_file_success_iff_witness :
    ∃ ret a2 failed rs,
      autr_read_file 8 sample_parse (fun _ => 1234567890) ⟨[]⟩ "anchor.file".toList
          (some ["\n".toList, " ; a comment\n".toList, "junk\n".toList,
                 "a. DNSKEY 257 3 5 AQ== ;state=".toList])
        = some (ret, a2, failed)
      ∧ load_results 8 sample_parse (fun _ => 1234567890) "anchor.file".toList
          ["\n".toList, " ; a comment\n".toList, "junk\n".toList,
           "a. DNSKEY 257 3 5 AQ== ;state=".toList] ⟨[]⟩ 0 = some rs
      ∧ (ret = 1 ∨ ret = 0)
      ∧ (ret = 1 ↔ ((∃ t, some t ∈ rs) ∧ ∀ t1 t2, some t1 ∈ rs → some t2 ∈ rs → t1 = t2))
      ∧ ((∀ r ∈ rs, r = none) → ret = 0) :=
  autr_read_file_success_iff 8 sample_parse (fun _ => 1234567890) ⟨[]⟩ "anchor.file".toList
    ["\n".toList, " ; a comment\n".toList, "junk\n".toList,
     "a. DNSKEY 257 3 5 AQ== ;state=".toList]
    (fun t ht => absurd ht (List.not_mem_nil t))

end Autotrust
